import Mathlib

/-!
Verification of the interactive JSON tree renderer.

The repository contains two near-duplicate recursive renderers:
`src/interactive_json_tree/__init__.py` (extended, with `max_children` /
`max_string_length` truncation) and `src/json_tree/__init__.py` (minimal).
We embed both.

Modelling choices:
* Python objects form a graph with identity; we model the value graph as a
  `Heap` mapping object identities (`Nat`) to containers, with `Node.ref i`
  standing for a reference to the container with identity `i`.  This lets the
  embedding express the cyclic and shared-reference structures the code's
  `seen`-set logic is about.
* Python's mutable `seen` set of ids is threaded explicitly as a `List Nat`.
* The recursion of `_to_html` is embedded with an explicit fuel parameter
  (`toHtmlF`); sufficiency of fuel is proved, which is exactly the
  termination argument for the Python recursion.
* Machine strings are Lean `String`s; `html.escape(str(x), quote=False)` is
  embedded as `esc` (replacing the characters `&` `<` `>`); `str(int)` is
  embedded as decimal rendering (`natRepr` / `intRepr`); floats and opaque
  fallback values carry their Python `str`/`repr` text.
-/

set_option maxRecDepth 10000

namespace JsonTree

/-- Primitive (non-container) Python values as classified by `fmt_primitive`:
strings, `None`, booleans, ints, floats (carrying their `str` text) and any
other object (carrying its `repr` text). -/
inductive Prim where
  | pstr (s : String)
  | pnone
  | pbool (b : Bool)
  | pint (n : Int)
  | pfloat (r : String)
  | popq (r : String)
deriving DecidableEq

/-- A node of the value graph: a primitive, or a reference to a container
object with identity `i`. -/
inductive Node where
  | prim (p : Prim)
  | ref (i : Nat)
deriving DecidableEq

/-- A container object: a mapping (insertion-ordered entries) or a sequence. -/
inductive Container where
  | cobj (entries : List (String × Node))
  | carr (items : List Node)
deriving DecidableEq

/-- The object heap: identities of container objects and their contents. -/
abbrev Heap := List (Nat × Container)

/-- Resolve an object identity in the heap. -/
def lookupC (h : Heap) (i : Nat) : Option Container :=
  match h with
  | [] => none
  | (j, c) :: t => if j = i then some c else lookupC t i

/-- One character of `html.escape(-, quote=False)`: `&`, `<`, `>` are replaced
by their entity references, everything else is kept. -/
def escChar (c : Char) : String :=
  if c = '&' then "&amp;"
  else if c = '<' then "&lt;"
  else if c = '>' then "&gt;"
  else String.singleton c

/-- The helper `esc(x) = html.escape(str(x), quote=False)` from both source files. -/
def esc (s : String) : String :=
  String.join (s.data.map escChar)

/-- A decimal digit character (argument is taken modulo its match). -/
def digitChar (d : Nat) : Char :=
  match d with
  | 0 => '0' | 1 => '1' | 2 => '2' | 3 => '3' | 4 => '4'
  | 5 => '5' | 6 => '6' | 7 => '7' | 8 => '8' | _ => '9'

/-- Decimal digit accumulation, structurally recursive on a fuel argument so
that it reduces in the kernel; `fuel > n` always suffices since `n / 10 < n`
for `n ≥ 10`. -/
def natDigitsAux : Nat → Nat → List Char
  | 0, _ => []
  | fuel + 1, n =>
    if n < 10 then [digitChar n]
    else natDigitsAux fuel (n / 10) ++ [digitChar (n % 10)]

/-- Decimal digits of a natural number, most significant first. -/
def natDigits (n : Nat) : List Char :=
  natDigitsAux (n + 1) n

/-- Python `str` of a non-negative integer. -/
def natRepr (n : Nat) : String :=
  String.mk (natDigits n)

/-- Python `str` of an integer. -/
def intRepr (n : Int) : String :=
  if n < 0 then "-" ++ natRepr (-n).toNat else natRepr n.toNat

/-- The repeated guard `x is not None and x >= 0` applied to a limit option:
the resulting effective bound, or `none` when unlimited. -/
def bounded (o : Option Int) : Option Nat :=
  match o with
  | none => none
  | some m => if 0 ≤ m then some m.toNat else none

/-- Embedding of `fmt_primitive` of the extended variant
(`src/interactive_json_tree/__init__.py`, lines 94-110). -/
def fmt_primitive (max_string_length : Option Int) (v : Prim) : String :=
  match v with
  | .pstr s =>
    match bounded max_string_length with
    | some m =>
      if m < s.length then
        "<span class=\"jt-str jt-str-trunc\">\"" ++ esc (String.mk (s.data.take m)) ++ "...\"</span>"
      else
        "<span class=\"jt-str\">\"" ++ esc s ++ "\"</span>"
    | none => "<span class=\"jt-str\">\"" ++ esc s ++ "\"</span>"
  | .pnone => "<span class=\"jt-null\">null</span>"
  | .pbool b =>
    if b then "<span class=\"jt-bool\">true</span>" else "<span class=\"jt-bool\">false</span>"
  | .pint n => "<span class=\"jt-num\">" ++ intRepr n ++ "</span>"
  | .pfloat r => "<span class=\"jt-num\">" ++ r ++ "</span>"
  | .popq r => "<span>" ++ esc r ++ "</span>"

/-- Embedding of `fmt_primitive` of the minimal variant (`src/json_tree/__init__.py`,
lines 42-51): no string truncation. -/
def fmt_primitive_min (v : Prim) : String :=
  match v with
  | .pstr s => "<span class=\"jt-str\">\"" ++ esc s ++ "\"</span>"
  | .pnone => "<span class=\"jt-null\">null</span>"
  | .pbool b =>
    if b then "<span class=\"jt-bool\">true</span>" else "<span class=\"jt-bool\">false</span>"
  | .pint n => "<span class=\"jt-num\">" ++ intRepr n ++ "</span>"
  | .pfloat r => "<span class=\"jt-num\">" ++ r ++ "</span>"
  | .popq r => "<span>" ++ esc r ++ "</span>"

/-- Key passed to a child: a mapping key (rendered quoted and escaped) or a
sequence index (rendered as `[i]`).  `key=None` is `Option.none` outside. -/
inductive PyKey where
  | str (s : String)
  | idx (n : Nat)
deriving DecidableEq

/-- Embedding of `key_prefix_html(k, is_index)` from both source files. -/
def key_prefix_html (k : Option PyKey) : String :=
  match k with
  | none => ""
  | some (.idx n) =>
    "<span class=\"jt-key\">[" ++ natRepr n ++ "]</span><span class=\"jt-punct\">: </span>"
  | some (.str s) =>
    "<span class=\"jt-key\">\"" ++ esc s ++ "\"</span><span class=\"jt-punct\">: </span>"

/-- Python text of `level * _INDENT_REM` where `_INDENT_REM = 0.5`:
`0.0`, `0.5`, `1.0`, `1.5`, ... -/
def indentRem (n : Nat) : String :=
  if n % 2 = 0 then natRepr (n / 2) ++ ".0" else natRepr (n / 2) ++ ".5"

/-- The leaf-line template
`<div class="jt-leaf" style="margin-left:{lvl}rem">{pre}{val}</div>`. -/
def leaf_html (lvl : Nat) (pre val : String) : String :=
  "<div class=\"jt-leaf\" style=\"margin-left:" ++ indentRem lvl ++ "rem\">" ++ pre ++ val ++ "</div>"

/-- The summary leaf reporting omitted children, extended variant only. -/
def more_html (lvl : Nat) (remaining : Nat) : String :=
  "<div class=\"jt-more\" style=\"margin-left:" ++ indentRem lvl ++ "rem\"><em>... "
    ++ natRepr remaining ++ " more item" ++ (if remaining ≠ 1 then "s" else "") ++ "</em></div>"

/-- The marker returned when a container identity is already in `seen`
(both variants, verbatim; note: no margin style, no key prefix). -/
def circular_html : String :=
  "<div class=\"jt-leaf\"><em>[Circular]</em></div>"

/-- The `<details>` section template shared by both container branches. -/
def details_html (open_attr : String) (lvl : Nat) (label inner : String) : String :=
  "<details class=\"jt-details\"" ++ open_attr ++ " style=\"margin-left:" ++ indentRem lvl
    ++ "rem\"><summary class=\"jt-summary\">" ++ label ++ "</summary>" ++ inner ++ "</details>"

/-- Summary label of the mapping branch (the source's literal is
`{}` + ` Object ` + the punctuated count). -/
def summary_obj (key : Option PyKey) (cnt : String) : String :=
  key_prefix_html key ++ "\x7b\x7d Object <span class=\"jt-punct\">(" ++ cnt ++ ")</span>"

/-- Summary label of the sequence branch. -/
def summary_arr (key : Option PyKey) (cnt : String) : String :=
  key_prefix_html key ++ "[] Array <span class=\"jt-punct\">(" ++ cnt ++ ")</span>"

/-- Keyed child list of a mapping: `islice(obj.items(), max_children)` when the
limit is bounded, with mapping keys marked as non-index keys. -/
def objChildren (entries : List (String × Node)) (max_children : Option Int) :
    List (PyKey × Node) :=
  let sliced : List (String × Node) :=
    match bounded max_children with
    | some b => entries.take b
    | none => entries
  sliced.map (fun kv => (PyKey.str kv.1, kv.2))

/-- Keyed child list of a sequence: `islice(enumerate(obj), max_children)` when
the limit is bounded, with indices marked as index keys. -/
def arrChildren (items : List Node) (max_children : Option Int) :
    List (PyKey × Node) :=
  let sliced : List (Nat × Node) :=
    match bounded max_children with
    | some b => items.enum.take b
    | none => items.enum
  sliced.map (fun iv => (PyKey.idx iv.1, iv.2))

/-- The child loop shared by the mapping and sequence branches of `_to_html`:
a primitive child becomes a single leaf line, a container child is rendered by
the recursive call `render` (receiving its key), and the `seen` set is
threaded left to right.  `fmtP` is the active primitive formatter. -/
def rowsGo (fmtP : Prim → String)
    (render : Node → Option PyKey → List Nat → Option (String × List Nat))
    (child_level : Nat) :
    List (PyKey × Node) → List Nat → Option (List String × List Nat)
  | [], seen => some ([], seen)
  | (k, v) :: rest, seen =>
    match v with
    | .prim p =>
      match rowsGo fmtP render child_level rest seen with
      | none => none
      | some (rows, seen') =>
        some (leaf_html child_level (key_prefix_html (some k)) (fmtP p) :: rows, seen')
    | .ref j =>
      match render (.ref j) (some k) seen with
      | none => none
      | some (row, seen1) =>
        match rowsGo fmtP render child_level rest seen1 with
        | none => none
        | some (rows, seen2) => some (row :: rows, seen2)

/-- The tail of both container branches of the extended `_to_html` (shared
verbatim between the dict branch, lines 124-186, and the list branch, lines
189-249, which differ only in the label): compute `visible`, the `open`
attribute, the count display, and wrap the child rows (plus the omitted-items
summary leaf when `size > visible`) in a `<details>` section. -/
def container_wrap (isArr : Bool) (key : Option PyKey) (expand_depth : Int)
    (level size : Nat) (max_children : Option Int) (rows : List String) : String :=
  let visible := match bounded max_children with
    | some b => min size b
    | none => size
  let open_attr := if 0 < expand_depth then " open" else ""
  let count_display :=
    if visible ≠ size then natRepr visible ++ "/" ++ natRepr size else natRepr size
  let label :=
    if isArr then summary_arr key count_display else summary_obj key count_display
  let rows2 :=
    if visible < size then rows ++ [more_html (level + 1) (size - visible)] else rows
  details_html open_attr level label (String.join rows2)

/-- Fuel-indexed embedding of `_to_html` of the extended variant
(`src/interactive_json_tree/__init__.py`, lines 64-258).  Returns the markup
together with the final `seen` set, or `none` when out of fuel (fuel
sufficiency is proved below: one unit of fuel per nesting level suffices). -/
def toHtmlF : Nat → Heap → Node → Int → Nat → List Nat → Option PyKey →
    Option Int → Option Int → Option (String × List Nat)
  | 0, _, _, _, _, _, _, _, _ => none
  | fuel + 1, h, node, expand_depth, level, seen, key, max_children, max_string_length =>
    match node with
    | .prim p =>
      some (leaf_html level (key_prefix_html key) (fmt_primitive max_string_length p), seen)
    | .ref i =>
      if i ∈ seen then
        some (circular_html, seen)
      else
        match lookupC h i with
        | none => some ("", i :: seen)  -- unreachable: every live id resolves
        | some (.cobj entries) =>
          match rowsGo (fmt_primitive max_string_length)
              (fun n k s =>
                toHtmlF fuel h n (max (expand_depth - 1) 0) (level + 1) s k
                  max_children max_string_length)
              (level + 1) (objChildren entries max_children) (i :: seen) with
          | none => none
          | some (rows, seen2) =>
            some (container_wrap false key expand_depth level entries.length
              max_children rows, seen2)
        | some (.carr items) =>
          match rowsGo (fmt_primitive max_string_length)
              (fun n k s =>
                toHtmlF fuel h n (max (expand_depth - 1) 0) (level + 1) s k
                  max_children max_string_length)
              (level + 1) (arrChildren items max_children) (i :: seen) with
          | none => none
          | some (rows, seen2) =>
            some (container_wrap true key expand_depth level items.length
              max_children rows, seen2)

/-- Fuel-indexed embedding of `_to_html` of the minimal variant
(`src/json_tree/__init__.py`, lines 22-157): no truncation options. -/
def toHtmlMinF : Nat → Heap → Node → Int → Nat → List Nat → Option PyKey →
    Option (String × List Nat)
  | 0, _, _, _, _, _, _ => none
  | fuel + 1, h, node, expand_depth, level, seen, key =>
    match node with
    | .prim p =>
      some (leaf_html level (key_prefix_html key) (fmt_primitive_min p), seen)
    | .ref i =>
      if i ∈ seen then
        some (circular_html, seen)
      else
        match lookupC h i with
        | none => some ("", i :: seen)  -- unreachable: every live id resolves
        | some (.cobj entries) =>
          let size := entries.length
          let open_attr := if 0 < expand_depth then " open" else ""
          match rowsGo fmt_primitive_min
              (fun n k s => toHtmlMinF fuel h n (max (expand_depth - 1) 0) (level + 1) s k)
              (level + 1) (objChildren entries none) (i :: seen) with
          | none => none
          | some (rows, seen2) =>
            some (details_html open_attr level (summary_obj key (natRepr size))
              (String.join rows), seen2)
        | some (.carr items) =>
          let size := items.length
          let open_attr := if 0 < expand_depth then " open" else ""
          match rowsGo fmt_primitive_min
              (fun n k s => toHtmlMinF fuel h n (max (expand_depth - 1) 0) (level + 1) s k)
              (level + 1) (arrChildren items none) (i :: seen) with
          | none => none
          | some (rows, seen2) =>
            some (details_html open_attr level (summary_arr key (natRepr size))
              (String.join rows), seen2)

/-- Number of container identities of the heap not yet visited: the quantity
that bounds the remaining recursion depth. -/
def unvisited (h : Heap) (seen : List Nat) : Nat :=
  ((h.map Prod.fst).dedup.filter (fun i => !decide (i ∈ seen))).length

/-- Total version of `_to_html` (extended variant): runs `toHtmlF` with
provably sufficient fuel and projects the markup string. -/
def to_html (h : Heap) (node : Node) (expand_depth : Int) (level : Nat)
    (seen : List Nat) (key : Option PyKey)
    (max_children max_string_length : Option Int) : String :=
  match toHtmlF (unvisited h seen + 1) h node expand_depth level seen key
      max_children max_string_length with
  | some (s, _) => s
  | none => ""

/-- Total version of `_to_html` (minimal variant). -/
def to_html_min (h : Heap) (node : Node) (expand_depth : Int) (level : Nat)
    (seen : List Nat) (key : Option PyKey) : String :=
  match toHtmlMinF (unvisited h seen + 1) h node expand_depth level seen key with
  | some (s, _) => s
  | none => ""

/-- The scoped stylesheet emitted by `json_to_html_tree` of the extended
variant (lines 309-345), as a function of the scope identifier. -/
def style_block (uid : String) : String :=
  "\n<style>\n#" ++ uid ++ " \x7b\n"
    ++ "  font-family: ui-monospace, SFMono-Regular, Menlo, Consolas, monospace;\n"
    ++ "  font-size: 13px; line-height: 1.45;\n\x7d\n#" ++ uid ++ " summary \x7b\n"
    ++ "  cursor: pointer;\n  list-style: none;\n  display: inline-flex;\n"
    ++ "  align-items: baseline;\n  gap: 0.25rem;\n\x7d\n#" ++ uid
    ++ " summary::-webkit-details-marker \x7b display: none; \x7d\n#" ++ uid
    ++ " .jt-summary::before \x7b\n  content: \"▸\";\n  display: inline-block;\n"
    ++ "  width: 1em;\n  color: #94a3b8;\n\x7d\n#" ++ uid
    ++ " details[open] > .jt-summary::before \x7b content: \"▾\"; \x7d\n\n#" ++ uid
    ++ " .jt-key   \x7b color: #1f2937; \x7d\n#" ++ uid
    ++ " .jt-punct \x7b color: #94a3b8; \x7d\n#" ++ uid
    ++ " .jt-str   \x7b color: #059669; \x7d\n#" ++ uid
    ++ " .jt-str-trunc \x7b color: #dc2626; \x7d\n#" ++ uid
    ++ " .jt-num   \x7b color: #b45309; \x7d\n#" ++ uid
    ++ " .jt-bool  \x7b color: #2563eb; \x7d\n#" ++ uid
    ++ " .jt-null  \x7b color: #dc2626; \x7d\n#" ++ uid
    ++ " .jt-more  \x7b color: #94a3b8; \x7d\n"
    ++ "@media (prefers-color-scheme: dark) \x7b\n  #" ++ uid
    ++ " .jt-key \x7b color: #e5e7eb; \x7d\n  #" ++ uid
    ++ " .jt-str-trunc \x7b color: #f87171; \x7d\n  #" ++ uid
    ++ " .jt-more \x7b color: #64748b; \x7d\n\x7d\n</style>\n"

/-- Embedding of `json_to_html_tree` of the extended variant (lines 261-346).  The scope
identifier `uid` (a fresh `jt-`-prefixed random token in the source) is an
injected parameter, per the spec's treatment of unique-id generation as an
external service. -/
def json_to_html_tree (uid : String) (h : Heap) (obj : Node) (key : Option String)
    (expand_depth : Int) (max_children max_string_length : Option Int) : String :=
  style_block uid ++ "<div id=\"" ++ uid ++ "\" class=\"jt\">"
    ++ to_html h obj expand_depth 0 [] (key.map PyKey.str) max_children max_string_length
    ++ "</div>"

/-- Number of positions of `s` at which the token `tok` occurs (as a
character substring).  Used to count occurrences of markup fragments. -/
def countPos (tok : List Char) : List Char → Nat
  | [] => 0
  | c :: rest => (if tok.isPrefixOf (c :: rest) then 1 else 0) + countPos tok rest

/-- Occurrence count of the token string `tok` in `s`. -/
def CP (tok s : String) : Nat :=
  countPos tok.data s.data

/-! ### C1: tree-shaped structures render one fragment per node

A `TVal` is an ordinary tree value; `RepV h n t u` says the heap node `n`
unfolds to the tree `t` using the pairwise-distinct container identities `u`
(each container reachable through exactly one reference — no sharing, no
cycles).  This is the class of inputs on which the amended C1 is proved. -/

mutual
inductive TVal where
  | prim (p : Prim)
  | tobj (fs : TFields)
  | tarr (its : TItems)
inductive TFields where
  | fnil
  | fcons (k : String) (v : TVal) (rest : TFields)
inductive TItems where
  | inil
  | icons (v : TVal) (rest : TItems)
end

mutual
/-- Number of container nodes of a tree value. -/
def cntC : TVal → Nat
  | .prim _ => 0
  | .tobj fs => 1 + cntCF fs
  | .tarr its => 1 + cntCI its
def cntCF : TFields → Nat
  | .fnil => 0
  | .fcons _ v rest => cntC v + cntCF rest
def cntCI : TItems → Nat
  | .inil => 0
  | .icons v rest => cntC v + cntCI rest
end

mutual
/-- Number of primitive nodes of a tree value. -/
def cntP : TVal → Nat
  | .prim _ => 1
  | .tobj fs => cntPF fs
  | .tarr its => cntPI its
def cntPF : TFields → Nat
  | .fnil => 0
  | .fcons _ v rest => cntP v + cntPF rest
def cntPI : TItems → Nat
  | .inil => 0
  | .icons v rest => cntP v + cntPI rest
end

mutual
/-- Container-nesting depth of a tree value (the fuel one render call of it
consumes). -/
def depthT : TVal → Nat
  | .prim _ => 0
  | .tobj fs => depthF fs + 1
  | .tarr its => depthI its + 1
def depthF : TFields → Nat
  | .fnil => 0
  | .fcons _ v rest => max (depthT v) (depthF rest)
def depthI : TItems → Nat
  | .inil => 0
  | .icons v rest => max (depthT v) (depthI rest)
end

/-- No `<` and no `>` among the characters of `s`. -/
def CleanStr (s : String) : Prop :=
  ∀ c ∈ s.data, c ≠ '<' ∧ c ≠ '>'

/-- The only primitive whose rendering embeds raw (unescaped) text is a
float, which carries its Python `str` text; that text is tag-free. -/
def cleanP : Prim → Prop
  | .pfloat r => CleanStr r
  | _ => True

mutual
def cleanT : TVal → Prop
  | .prim p => cleanP p
  | .tobj fs => cleanF fs
  | .tarr its => cleanI its
def cleanF : TFields → Prop
  | .fnil => True
  | .fcons _ v rest => cleanT v ∧ cleanF rest
def cleanI : TItems → Prop
  | .inil => True
  | .icons v rest => cleanT v ∧ cleanI rest
end

mutual
/-- Relation `RepV h n t u`: node `n` of heap `h` unfolds to the tree `t`, the
container identities used along the way being exactly `u`, all distinct. -/
def RepV (h : Heap) : Node → TVal → List Nat → Prop
  | .prim p, .prim q, u => q = p ∧ u = []
  | .ref i, .tobj fs, u => ∃ entries u0, lookupC h i = some (.cobj entries)
      ∧ RepFs h entries fs u0 ∧ i ∉ u0 ∧ u = i :: u0
  | .ref i, .tarr its, u => ∃ items u0, lookupC h i = some (.carr items)
      ∧ RepIs h items its u0 ∧ i ∉ u0 ∧ u = i :: u0
  | _, _, _ => False
def RepFs (h : Heap) : List (String × Node) → TFields → List Nat → Prop
  | [], .fnil, u => u = []
  | (k, n) :: rest, .fcons k2 v fs, u => ∃ u1 u2, k2 = k ∧ RepV h n v u1
      ∧ RepFs h rest fs u2 ∧ (∀ x ∈ u1, x ∉ u2) ∧ u = u1 ++ u2
  | _, _, _ => False
def RepIs (h : Heap) : List Node → TItems → List Nat → Prop
  | [], .inil, u => u = []
  | n :: rest, .icons v its, u => ∃ u1 u2, RepV h n v u1
      ∧ RepIs h rest its u2 ∧ (∀ x ∈ u1, x ∉ u2) ∧ u = u1 ++ u2
  | _, _, _ => False
end

/-- Predicate `CPc tok s c`: in front of any continuation, `s` contributes exactly `c`
occurrences of `tok`. -/
def CPc (tok : List Char) (s : String) (c : Nat) : Prop :=
  ∀ rest : List Char, countPos tok (s.data ++ rest) = c + countPos tok rest

/-- The hypotheses on a token under which occurrence counting of the rendered
markup is uniform: the token starts with `<d` (so it can only match the
`<details` or `<div` tags, never the `<span`/`<summary`/`<em`/closer tags),
and `dD`/`dL` are its indicator values on the two `<d`-tags that occur. -/
def TagTok (tok : List Char) (dD dL : Nat) : Prop :=
  tok.take 2 = ['<', 'd']
  ∧ 2 ≤ tok.length ∧ tok.length ≤ 27
  ∧ (if tok.isPrefixOf ("<details class=\"jt-details\"" : String).data then 1 else 0) = dD
  ∧ (if tok.isPrefixOf ("<div class=\"jt-leaf\" style=\"margin-left:" : String).data
      then 1 else 0) = dL

/-- Container identities referenced by a container's children. -/
def refsOfC : Container → List Nat
  | .cobj entries => entries.filterMap (fun kv =>
      match kv.2 with
      | .ref i => some i
      | _ => none)
  | .carr items => items.filterMap (fun n =>
      match n with
      | .ref i => some i
      | _ => none)

/-- Python's `isinstance(v, (int, float))` test on a primitive: true for
booleans as well, since `bool` is a subtype of `int` in Python. -/
def isinstance_int_float : Prim → Bool
  | .pbool _ => true
  | .pint _ => true
  | .pfloat _ => true
  | _ => false

/-! ### Basic lemmas -/

theorem bounded_nonneg (m : Int) (h : 0 ≤ m) : bounded (some m) = some m.toNat := by
  simp [bounded, h]

theorem bounded_neg (m : Int) (h : m < 0) : bounded (some m) = none := by
  simp only [bounded, if_neg (not_le.mpr h)]

/-! ### C3: string truncation -/

/-- C3: for a non-negative bounded `maxStringLength`, a string strictly longer
than the limit renders as exactly the first `maxStringLength` characters
(escaped) followed by the `...` marker inside the quotes, tagged with the
distinct `jt-str-trunc` class; a string whose length equals the limit renders
in full with the plain `jt-str` tag; both renderings quote the value. -/
theorem string_truncation (m : Int) (s : String) (h0 : 0 ≤ m) :
    (m.toNat < s.length →
      fmt_primitive (some m) (.pstr s)
        = "<span class=\"jt-str jt-str-trunc\">\"" ++ esc (String.mk (s.data.take m.toNat))
            ++ "...\"</span>"
      ∧ (s.data.take m.toNat).length = m.toNat)
    ∧ (s.length = m.toNat →
      fmt_primitive (some m) (.pstr s) = "<span class=\"jt-str\">\"" ++ esc s ++ "\"</span>") := by
  constructor
  · intro h1
    refine ⟨?_, ?_⟩
    · simp [fmt_primitive, bounded_nonneg m h0, h1]
    · have : s.length = s.data.length := rfl
      rw [List.length_take]
      omega
  · intro h1
    simp [fmt_primitive, bounded_nonneg m h0, h1]

/-- Witness for `string_truncation` at a concrete input. -/
theorem string_truncation_witness :
    ((3 : Int).toNat < ("abcde" : String).length
      ∧ fmt_primitive (some 3) (.pstr "abcde")
         = "<span class=\"jt-str jt-str-trunc\">\""
             ++ esc (String.mk (("abcde" : String).data.take (3 : Int).toNat)) ++ "...\"</span>")
    ∧ fmt_primitive (some 5) (.pstr "abcde")
        = "<span class=\"jt-str\">\"" ++ esc "abcde" ++ "\"</span>" :=
  ⟨⟨by decide, ((string_truncation 3 "abcde" (by decide)).1 (by decide)).1⟩,
    (string_truncation 5 "abcde" (by decide)).2 (by decide)⟩

/-! ### C9: primitive dispatch order -/

/-- C9: primitive formatting dispatches string, null, boolean, number, opaque
fallback in that order: a boolean satisfies Python's `isinstance(v, (int,
float))` test yet is rendered as the literal `true`/`false` with the `jt-bool`
tag and never as the numeric branch's rendering (`str(True)`/`str(False)` with
the `jt-num` tag); ints and floats are rendered with their natural decimal
text under `jt-num`; any unrecognized value falls back to its escaped `repr`
with no type class, rather than raising. -/
theorem primitive_dispatch (ms : Option Int) (b : Bool) (n : Int) (r r2 : String) :
    isinstance_int_float (.pbool b) = true
    ∧ fmt_primitive ms (.pbool b)
        = (if b then "<span class=\"jt-bool\">true</span>"
           else "<span class=\"jt-bool\">false</span>")
    ∧ fmt_primitive ms (.pbool b)
        ≠ "<span class=\"jt-num\">" ++ (if b then "True" else "False") ++ "</span>"
    ∧ fmt_primitive ms (.pint n) = "<span class=\"jt-num\">" ++ intRepr n ++ "</span>"
    ∧ fmt_primitive ms (.pfloat r) = "<span class=\"jt-num\">" ++ r ++ "</span>"
    ∧ fmt_primitive ms (.popq r2) = "<span>" ++ esc r2 ++ "</span>" := by
  refine ⟨rfl, rfl, ?_, rfl, rfl, rfl⟩
  cases b
  · have hv : fmt_primitive ms (.pbool false) = "<span class=\"jt-bool\">false</span>" := rfl
    rw [hv]; decide
  · have hv : fmt_primitive ms (.pbool true) = "<span class=\"jt-bool\">true</span>" := rfl
    rw [hv]; decide

/-! ### C10: the circular marker drops the child's key -/

/-- C10: when a container identity is already in `seen`, both variants return
exactly the fragment `<div class="jt-leaf"><em>[Circular]</em></div>` whatever
key or index label the parent passed down: the marker never carries a
`jt-key` prefix. -/
theorem circular_marker_drops_key (fuel : Nat) (h : Heap) (i : Nat) (ed : Int) (lvl : Nat)
    (seen : List Nat) (key : Option PyKey) (mc ms : Option Int) (hmem : i ∈ seen) :
    toHtmlF (fuel + 1) h (.ref i) ed lvl seen key mc ms = some (circular_html, seen)
    ∧ toHtmlMinF (fuel + 1) h (.ref i) ed lvl seen key = some (circular_html, seen)
    ∧ circular_html = "<div class=\"jt-leaf\"><em>[Circular]</em></div>"
    ∧ CP "jt-key" circular_html = 0 := by
  refine ⟨?_, ?_, rfl, by decide⟩
  · simp [toHtmlF, hmem]
  · simp [toHtmlMinF, hmem]

/-- Witness for `circular_marker_drops_key`: a parent passing the key `"k"`
down to an already-seen container still gets the bare marker. -/
theorem circular_marker_drops_key_witness :
    (0 : Nat) ∈ [0]
    ∧ toHtmlF 1 [] (.ref 0) 1 0 [0] (some (.str "k")) none none
        = some (circular_html, [0]) :=
  ⟨by decide,
    (circular_marker_drops_key 0 [] 0 1 0 [0] (some (.str "k")) none none (by decide)).1⟩

/-! ### C2: child-count truncation -/

theorem rowsGo_length (fmtP : Prim → String)
    (render : Node → Option PyKey → List Nat → Option (String × List Nat)) (lvl : Nat) :
    ∀ (children : List (PyKey × Node)) (seen : List Nat) (rows : List String)
      (seen' : List Nat),
      rowsGo fmtP render lvl children seen = some (rows, seen') →
      rows.length = children.length := by
  intro children
  induction children with
  | nil =>
    intro seen rows seen' hrun
    simp only [rowsGo, Option.some.injEq, Prod.mk.injEq] at hrun
    simp [← hrun.1]
  | cons kv rest ih =>
    intro seen rows seen' hrun
    obtain ⟨k, v⟩ := kv
    cases v with
    | prim p =>
      simp only [rowsGo] at hrun
      cases hrest : rowsGo fmtP render lvl rest seen with
      | none => simp [hrest] at hrun
      | some pr =>
        obtain ⟨rows0, s0⟩ := pr
        simp only [hrest, Option.some.injEq, Prod.mk.injEq] at hrun
        rw [← hrun.1]
        simp [ih seen rows0 s0 hrest]
    | ref j =>
      simp only [rowsGo] at hrun
      cases hr : render (.ref j) (some k) seen with
      | none => simp [hr] at hrun
      | some pr =>
        obtain ⟨row, s1⟩ := pr
        simp only [hr] at hrun
        cases hrest : rowsGo fmtP render lvl rest s1 with
        | none => simp [hrest] at hrun
        | some pr2 =>
          obtain ⟨rows0, s2⟩ := pr2
          simp only [hrest, Option.some.injEq, Prod.mk.injEq] at hrun
          rw [← hrun.1]
          simp [ih s1 rows0 s2 hrest]

theorem container_wrap_truncated (isArr : Bool) (key : Option PyKey) (ed : Int)
    (lvl size : Nat) (m : Int) (rows : List String) (h0 : 0 ≤ m) (hlt : m.toNat < size) :
    container_wrap isArr key ed lvl size (some m) rows
      = details_html (if 0 < ed then " open" else "") lvl
          (if isArr then summary_arr key (natRepr m.toNat ++ "/" ++ natRepr size)
           else summary_obj key (natRepr m.toNat ++ "/" ++ natRepr size))
          (String.join (rows ++ [more_html (lvl + 1) (size - m.toNat)])) := by
  simp [container_wrap, bounded_nonneg m h0, min_eq_right hlt.le, hlt, Nat.ne_of_lt hlt]

theorem container_wrap_all (isArr : Bool) (key : Option PyKey) (ed : Int)
    (lvl size : Nat) (mc : Option Int) (rows : List String)
    (hvis : (match bounded mc with | some b => min size b | none => size) = size) :
    container_wrap isArr key ed lvl size mc rows
      = details_html (if 0 < ed then " open" else "") lvl
          (if isArr then summary_arr key (natRepr size) else summary_obj key (natRepr size))
          (String.join rows) := by
  simp [container_wrap, hvis]

/-- Right-associated form of the omitted-items leaf, separating the singular
and plural wordings. -/
theorem more_plural (lv R : Nat) :
    more_html lv R
      = "<div class=\"jt-more\" style=\"margin-left:"
          ++ (indentRem lv
          ++ ("rem\"><em>... "
          ++ (natRepr R
          ++ (if R ≠ 1 then " more items</em></div>" else " more item</em></div>")))) := by
  rw [more_html]
  by_cases hR : R = 1
  · subst hR
    simp only [ne_eq, not_true_eq_false, if_neg, ite_false, if_false]
    simp only [String.append_assoc]
    refine congrArg _ (congrArg _ (congrArg _ (congrArg _ ?_)))
    decide
  · simp only [ne_eq, hR, not_false_eq_true, if_pos, ite_true, if_true]
    simp only [String.append_assoc]
    refine congrArg _ (congrArg _ (congrArg _ (congrArg _ ?_)))
    decide

/-- C2: for a container of `size` children and a non-negative bounded
`maxChildren = m`: when `size` exceeds `m.toNat`, exactly `m.toNat` child rows
are emitted (rendered from the first `m.toNat` children in natural order), the
header count reads `visible/size`, and one extra `jt-more` summary leaf
reports the omitted `size - m.toNat` — worded `... 1 more item` when exactly
one child is omitted and `... N more items` otherwise; when `size` does not
exceed the limit, all children are emitted, the header shows the bare count
and no summary leaf appears. -/
theorem children_truncation :
    (∀ (fuel : Nat) (h : Heap) (i : Nat) (entries : List (String × Node)) (ed : Int)
      (lvl : Nat) (seen : List Nat) (key : Option PyKey) (m : Int) (ms : Option Int)
      (rows : List String) (seen2 : List Nat),
      0 ≤ m → i ∉ seen → lookupC h i = some (.cobj entries) →
      rowsGo (fmt_primitive ms)
          (fun n k s => toHtmlF fuel h n (max (ed - 1) 0) (lvl + 1) s k (some m) ms)
          (lvl + 1) (objChildren entries (some m)) (i :: seen) = some (rows, seen2) →
      (m.toNat < entries.length →
        toHtmlF (fuel + 1) h (.ref i) ed lvl seen key (some m) ms
          = some (details_html (if 0 < ed then " open" else "") lvl
              (summary_obj key (natRepr m.toNat ++ "/" ++ natRepr entries.length))
              (String.join (rows ++ [more_html (lvl + 1) (entries.length - m.toNat)])), seen2)
        ∧ rows.length = m.toNat
        ∧ objChildren entries (some m)
            = (entries.take m.toNat).map (fun kv => (PyKey.str kv.1, kv.2)))
      ∧ (entries.length ≤ m.toNat →
        toHtmlF (fuel + 1) h (.ref i) ed lvl seen key (some m) ms
          = some (details_html (if 0 < ed then " open" else "") lvl
              (summary_obj key (natRepr entries.length)) (String.join rows), seen2)
        ∧ rows.length = entries.length
        ∧ objChildren entries (some m)
            = entries.map (fun kv => (PyKey.str kv.1, kv.2))))
    ∧ (∀ (fuel : Nat) (h : Heap) (i : Nat) (items : List Node) (ed : Int)
      (lvl : Nat) (seen : List Nat) (key : Option PyKey) (m : Int) (ms : Option Int)
      (rows : List String) (seen2 : List Nat),
      0 ≤ m → i ∉ seen → lookupC h i = some (.carr items) →
      rowsGo (fmt_primitive ms)
          (fun n k s => toHtmlF fuel h n (max (ed - 1) 0) (lvl + 1) s k (some m) ms)
          (lvl + 1) (arrChildren items (some m)) (i :: seen) = some (rows, seen2) →
      (m.toNat < items.length →
        toHtmlF (fuel + 1) h (.ref i) ed lvl seen key (some m) ms
          = some (details_html (if 0 < ed then " open" else "") lvl
              (summary_arr key (natRepr m.toNat ++ "/" ++ natRepr items.length))
              (String.join (rows ++ [more_html (lvl + 1) (items.length - m.toNat)])), seen2)
        ∧ rows.length = m.toNat
        ∧ arrChildren items (some m)
            = (items.enum.take m.toNat).map (fun iv => (PyKey.idx iv.1, iv.2)))
      ∧ (items.length ≤ m.toNat →
        toHtmlF (fuel + 1) h (.ref i) ed lvl seen key (some m) ms
          = some (details_html (if 0 < ed then " open" else "") lvl
              (summary_arr key (natRepr items.length)) (String.join rows), seen2)
        ∧ rows.length = items.length
        ∧ arrChildren items (some m) = items.enum.map (fun iv => (PyKey.idx iv.1, iv.2))))
    ∧ (∀ lv R : Nat, (R = 1 →
        more_html lv R
          = "<div class=\"jt-more\" style=\"margin-left:"
              ++ (indentRem lv ++ ("rem\"><em>... " ++ (natRepr R ++ " more item</em></div>"))))
      ∧ (R ≠ 1 →
        more_html lv R
          = "<div class=\"jt-more\" style=\"margin-left:"
              ++ (indentRem lv ++ ("rem\"><em>... " ++ (natRepr R ++ " more items</em></div>"))))) := by
  refine ⟨?_, ?_, ?_⟩
  · intro fuel h i entries ed lvl seen key m ms rows seen2 h0 hni hl hrows
    have hchl : (objChildren entries (some m)).length = min m.toNat entries.length := by
      simp [objChildren, bounded_nonneg m h0]
    have hrl := rowsGo_length _ _ _ _ _ _ _ hrows
    have hrun : toHtmlF (fuel + 1) h (.ref i) ed lvl seen key (some m) ms
        = some (container_wrap false key ed lvl entries.length (some m) rows, seen2) := by
      simp only [toHtmlF, if_neg hni, hl, hrows]
    constructor
    · intro hlt
      refine ⟨?_, ?_, ?_⟩
      · rw [hrun, container_wrap_truncated false key ed lvl entries.length m rows h0 hlt]
        simp
      · rw [hrl, hchl]; omega
      · simp [objChildren, bounded_nonneg m h0]
    · intro hge
      refine ⟨?_, ?_, ?_⟩
      · rw [hrun, container_wrap_all false key ed lvl entries.length (some m) rows
          (by rw [bounded_nonneg m h0]; exact min_eq_left hge)]
        simp
      · rw [hrl, hchl]; omega
      · simp [objChildren, bounded_nonneg m h0, List.take_of_length_le hge]
  · intro fuel h i items ed lvl seen key m ms rows seen2 h0 hni hl hrows
    have hchl : (arrChildren items (some m)).length = min m.toNat items.length := by
      simp [arrChildren, bounded_nonneg m h0]
    have hrl := rowsGo_length _ _ _ _ _ _ _ hrows
    have hrun : toHtmlF (fuel + 1) h (.ref i) ed lvl seen key (some m) ms
        = some (container_wrap true key ed lvl items.length (some m) rows, seen2) := by
      simp only [toHtmlF, if_neg hni, hl, hrows]
    constructor
    · intro hlt
      refine ⟨?_, ?_, ?_⟩
      · rw [hrun, container_wrap_truncated true key ed lvl items.length m rows h0 hlt]
        simp
      · rw [hrl, hchl]; omega
      · simp [arrChildren, bounded_nonneg m h0]
    · intro hge
      refine ⟨?_, ?_, ?_⟩
      · rw [hrun, container_wrap_all true key ed lvl items.length (some m) rows
          (by rw [bounded_nonneg m h0]; exact min_eq_left hge)]
        simp
      · rw [hrl, hchl]; omega
      · have : items.enum.length = items.length := by simp
        simp [arrChildren, bounded_nonneg m h0, List.take_of_length_le, this, hge]
  · intro lv R
    constructor
    · intro h1
      subst h1
      rw [more_plural]
      simp
    · intro h1
      rw [more_plural]
      simp [h1]

/-- Witness for `children_truncation`: a three-element array truncated to two
children, and a two-entry mapping within a limit of three. -/
theorem children_truncation_witness :
    toHtmlF 2 [(0, .carr [.prim (.pint 0), .prim (.pint 1), .prim (.pint 2)])]
        (.ref 0) 1 0 [] none (some 2) none
      = some (details_html " open" 0 (summary_arr none ("2" ++ "/" ++ "3"))
          (String.join
            ([leaf_html 1 (key_prefix_html (some (.idx 0))) (fmt_primitive none (.pint 0)),
              leaf_html 1 (key_prefix_html (some (.idx 1))) (fmt_primitive none (.pint 1))]
              ++ [more_html 1 1])), [0]) := by
  have h := ((children_truncation.2.1) 1
    [(0, .carr [.prim (.pint 0), .prim (.pint 1), .prim (.pint 2)])] 0
    [.prim (.pint 0), .prim (.pint 1), .prim (.pint 2)] 1 0 [] none 2 none
    [leaf_html 1 (key_prefix_html (some (.idx 0))) (fmt_primitive none (.pint 0)),
     leaf_html 1 (key_prefix_html (some (.idx 1))) (fmt_primitive none (.pint 1))] [0]
    (by decide) (by decide) (by decide) (by decide)).1 (by decide)
  have heq := h.1
  rw [heq]
  rfl

/-! ### C5: expand depth -/

/-- Decomposition of a successful container render: the rows come from the
child loop run at depth `max (ed - 1) 0`, and the output is the wrapped
section. -/
theorem container_shape (fuel : Nat) (h : Heap) (i : Nat) (c : Container) (ed : Int)
    (lvl : Nat) (seen : List Nat) (key : Option PyKey) (mc ms : Option Int)
    (out : String) (seen2 : List Nat)
    (hni : i ∉ seen) (hl : lookupC h i = some c)
    (hrun : toHtmlF (fuel + 1) h (.ref i) ed lvl seen key mc ms = some (out, seen2)) :
    ∃ rows,
      rowsGo (fmt_primitive ms)
          (fun n k s => toHtmlF fuel h n (max (ed - 1) 0) (lvl + 1) s k mc ms)
          (lvl + 1)
          (match c with
           | .cobj entries => objChildren entries mc
           | .carr items => arrChildren items mc) (i :: seen)
        = some (rows, seen2)
      ∧ out = container_wrap (match c with | .cobj _ => false | .carr _ => true) key ed lvl
          (match c with | .cobj e => e.length | .carr its => its.length) mc rows := by
  cases c with
  | cobj entries =>
    simp only [toHtmlF, if_neg hni, hl] at hrun
    cases hrows : rowsGo (fmt_primitive ms)
        (fun n k s => toHtmlF fuel h n (max (ed - 1) 0) (lvl + 1) s k mc ms)
        (lvl + 1) (objChildren entries mc) (i :: seen) with
    | none => simp [hrows] at hrun
    | some pr =>
      obtain ⟨rows, s2⟩ := pr
      simp only [hrows, Option.some.injEq, Prod.mk.injEq] at hrun
      exact ⟨rows, by rw [hrun.2], hrun.1.symm⟩
  | carr items =>
    simp only [toHtmlF, if_neg hni, hl] at hrun
    cases hrows : rowsGo (fmt_primitive ms)
        (fun n k s => toHtmlF fuel h n (max (ed - 1) 0) (lvl + 1) s k mc ms)
        (lvl + 1) (arrChildren items mc) (i :: seen) with
    | none => simp [hrows] at hrun
    | some pr =>
      obtain ⟨rows, s2⟩ := pr
      simp only [hrows, Option.some.injEq, Prod.mk.injEq] at hrun
      exact ⟨rows, by rw [hrun.2], hrun.1.symm⟩

/-- The wrapped section of a container render always has the shape
`details_html` with the `open` attribute present iff `0 < ed`. -/
theorem container_wrap_open (isArr : Bool) (key : Option PyKey) (ed : Int)
    (lvl size : Nat) (mc : Option Int) (rows : List String) :
    ∃ label inner,
      container_wrap isArr key ed lvl size mc rows
        = details_html (if 0 < ed then " open" else "") lvl label inner := by
  simp only [container_wrap]
  exact ⟨_, _, rfl⟩

/-- C5: a container's section carries the `open` attribute iff the
`expandDepth` countdown passed to it is strictly positive, and its child
recursion runs at `max (expandDepth - 1) 0`; consequently, on a two-level
nested array, `expandDepth = 0` leaves both sections collapsed,
`expandDepth = 1` opens exactly the root, and `expandDepth = 2` opens both. -/
theorem expand_depth_open :
    (∀ (fuel : Nat) (h : Heap) (i : Nat) (c : Container) (ed : Int) (lvl : Nat)
      (seen : List Nat) (key : Option PyKey) (mc ms : Option Int) (out : String)
      (seen2 : List Nat),
      i ∉ seen → lookupC h i = some c →
      toHtmlF (fuel + 1) h (.ref i) ed lvl seen key mc ms = some (out, seen2) →
      ∃ rows label inner,
        rowsGo (fmt_primitive ms)
            (fun n k s => toHtmlF fuel h n (max (ed - 1) 0) (lvl + 1) s k mc ms)
            (lvl + 1)
            (match c with
             | .cobj entries => objChildren entries mc
             | .carr items => arrChildren items mc) (i :: seen)
          = some (rows, seen2)
        ∧ out = details_html (if 0 < ed then " open" else "") lvl label inner)
    ∧ CP "<details class=\"jt-details\" open"
        (to_html [(0, .carr [.ref 1]), (1, .carr [.prim .pnone])] (.ref 0) 0 0 [] none none none)
        = 0
    ∧ CP "<details class=\"jt-details\" open"
        (to_html [(0, .carr [.ref 1]), (1, .carr [.prim .pnone])] (.ref 0) 1 0 [] none none none)
        = 1
    ∧ CP "<details class=\"jt-details\" open"
        (to_html [(0, .carr [.ref 1]), (1, .carr [.prim .pnone])] (.ref 0) 2 0 [] none none none)
        = 2
    ∧ CP "<details"
        (to_html [(0, .carr [.ref 1]), (1, .carr [.prim .pnone])] (.ref 0) 1 0 [] none none none)
        = 2 := by
  refine ⟨?_, by decide, by decide, by decide, by decide⟩
  intro fuel h i c ed lvl seen key mc ms out seen2 hni hl hrun
  obtain ⟨rows, hrows, hout⟩ := container_shape fuel h i c ed lvl seen key mc ms out seen2 hni hl hrun
  cases c with
  | cobj entries =>
    obtain ⟨label, inner, he⟩ := container_wrap_open false key ed lvl entries.length mc rows
    exact ⟨rows, label, inner, hrows, hout.trans he⟩
  | carr items =>
    obtain ⟨label, inner, he⟩ := container_wrap_open true key ed lvl items.length mc rows
    exact ⟨rows, label, inner, hrows, hout.trans he⟩

/-- Witness for `expand_depth_open` at a concrete collapsed singleton array
(`expandDepth = 0`, so the `open` attribute is absent). -/
theorem expand_depth_open_witness :
    (0 : Nat) ∉ ([] : List Nat)
    ∧ lookupC [(0, .carr [.prim .pnone])] 0 = some (.carr [.prim .pnone])
    ∧ ∃ rows label inner,
        rowsGo (fmt_primitive none)
            (fun n k s =>
              toHtmlF 1 [(0, .carr [.prim .pnone])] n (max ((0 : Int) - 1) 0) (0 + 1) s k none none)
            (0 + 1) (arrChildren [.prim .pnone] none) [0]
          = some (rows, [0])
        ∧ to_html [(0, .carr [.prim .pnone])] (.ref 0) 0 0 [] none none none
            = details_html (if (0 : Int) < 0 then " open" else "") 0 label inner := by
  refine ⟨by decide, by decide, ?_⟩
  exact expand_depth_open.1 1 [(0, .carr [.prim .pnone])] 0 (.carr [.prim .pnone]) 0 0 []
    none none none _ [0] (by decide) (by decide) (by decide)

/-! ### C8: indentation -/

/-- C8 counterexample: in a self-referential array rendered at root level, the
`[Circular]` marker leaf (the only leaf, at nesting level 1) carries no
`margin-left:0.5rem` offset (indeed no offset at all), contradicting the claim
that every leaf line, including the `[Circular]` marker, is indented
proportionally to its level. -/
theorem indentation_counterexample :
    CP "[Circular]"
        (to_html [(0, .carr [.ref 0])] (.ref 0) 1 0 [] none none none) = 1
    ∧ CP "margin-left:0.5rem"
        (to_html [(0, .carr [.ref 0])] (.ref 0) 1 0 [] none none none) = 0 := by
  constructor <;> decide

/-- C8 amended: each container section carries the visual offset
`level * 0.5rem` (`indentRem level`, which steps by `.5` per level), and every
primitive leaf and omitted-items summary leaf carries the offset of its own
(child) level — but the `[Circular]` marker leaf is emitted with no offset at
all. -/
theorem indentation_amended :
    (∀ (fuel : Nat) (h : Heap) (p : Prim) (ed : Int) (lvl : Nat) (seen : List Nat)
      (key : Option PyKey) (mc ms : Option Int),
      toHtmlF (fuel + 1) h (.prim p) ed lvl seen key mc ms
        = some (leaf_html lvl (key_prefix_html key) (fmt_primitive ms p), seen))
    ∧ (∀ (fmtP : Prim → String)
        (render : Node → Option PyKey → List Nat → Option (String × List Nat))
        (child_level : Nat) (k : PyKey) (p : Prim) (rest : List (PyKey × Node))
        (seen : List Nat) (rows : List String) (seen' : List Nat),
        rowsGo fmtP render child_level rest seen = some (rows, seen') →
        rowsGo fmtP render child_level ((k, .prim p) :: rest) seen
          = some (leaf_html child_level (key_prefix_html (some k)) (fmtP p) :: rows, seen'))
    ∧ (∀ (fuel : Nat) (h : Heap) (i : Nat) (c : Container) (ed : Int) (lvl : Nat)
      (seen : List Nat) (key : Option PyKey) (mc ms : Option Int) (out : String)
      (seen2 : List Nat),
      i ∉ seen → lookupC h i = some c →
      toHtmlF (fuel + 1) h (.ref i) ed lvl seen key mc ms = some (out, seen2) →
      ∃ open_attr label inner,
        out = "<details class=\"jt-details\"" ++ open_attr ++ " style=\"margin-left:"
          ++ indentRem lvl ++ "rem\"><summary class=\"jt-summary\">" ++ label
          ++ "</summary>" ++ inner ++ "</details>")
    ∧ (∀ (lv R : Nat), ∃ tail,
        more_html lv R
          = "<div class=\"jt-more\" style=\"margin-left:" ++ (indentRem lv ++ tail))
    ∧ (∀ (fuel : Nat) (h : Heap) (i : Nat) (ed : Int) (lvl : Nat) (seen : List Nat)
      (key : Option PyKey) (mc ms : Option Int), i ∈ seen →
      toHtmlF (fuel + 1) h (.ref i) ed lvl seen key mc ms = some (circular_html, seen))
    ∧ CP "margin-left" circular_html = 0
    ∧ (∀ L : Nat, indentRem (2 * L) = natRepr L ++ ".0"
        ∧ indentRem (2 * L + 1) = natRepr L ++ ".5") := by
  refine ⟨?_, ?_, ?_, ?_, ?_, by decide, ?_⟩
  · intro fuel h p ed lvl seen key mc ms
    rfl
  · intro fmtP render child_level k p rest seen rows seen' hrest
    simp [rowsGo, hrest]
  · intro fuel h i c ed lvl seen key mc ms out seen2 hni hl hrun
    obtain ⟨rows, _, hout⟩ := container_shape fuel h i c ed lvl seen key mc ms out seen2 hni hl hrun
    cases c with
    | cobj entries =>
      obtain ⟨label, inner, he⟩ := container_wrap_open false key ed lvl entries.length mc rows
      refine ⟨if 0 < ed then " open" else "", label, inner, ?_⟩
      rw [hout, he]
      simp [details_html, String.append_assoc]
    | carr items =>
      obtain ⟨label, inner, he⟩ := container_wrap_open true key ed lvl items.length mc rows
      refine ⟨if 0 < ed then " open" else "", label, inner, ?_⟩
      rw [hout, he]
      simp [details_html, String.append_assoc]
  · intro lv R
    refine ⟨"rem\"><em>... " ++ natRepr R ++ " more item"
      ++ (if R ≠ 1 then "s" else "") ++ "</em></div>", ?_⟩
    simp [more_html, String.append_assoc]
  · intro fuel h i ed lvl seen key mc ms hmem
    simp [toHtmlF, hmem]
  · intro L
    have h1 : (2 * L) % 2 = 0 := by omega
    have h2 : (2 * L) / 2 = L := by omega
    have h3 : (2 * L + 1) % 2 = 1 := by omega
    have h4 : (2 * L + 1) / 2 = L := by omega
    constructor
    · simp [indentRem, h1, h2]
    · simp [indentRem, h3, h4]

/-- Witness for `indentation_amended`: the container clause at a concrete
singleton array. -/
theorem indentation_amended_witness :
    (0 : Nat) ∉ ([] : List Nat)
    ∧ ∃ open_attr label inner,
        to_html [(0, .carr [.prim .pnone])] (.ref 0) 1 0 [] none none none
          = "<details class=\"jt-details\"" ++ open_attr ++ " style=\"margin-left:"
            ++ indentRem 0 ++ "rem\"><summary class=\"jt-summary\">" ++ label
            ++ "</summary>" ++ inner ++ "</details>" :=
  ⟨by decide,
    indentation_amended.2.2.1 1 [(0, .carr [.prim .pnone])] 0 (.carr [.prim .pnone]) 1 0 []
      none none none _ [0] (by decide) (by decide) (by decide)⟩

/-! ### C6 and C7: limit normalization and the two variants -/

theorem rowsGo_congr (fmt1 fmt2 : Prim → String)
    (r1 r2 : Node → Option PyKey → List Nat → Option (String × List Nat)) (lvl : Nat)
    (hf : ∀ p, fmt1 p = fmt2 p) (hr : ∀ n k s, r1 n k s = r2 n k s) :
    ∀ (children : List (PyKey × Node)) (seen : List Nat),
      rowsGo fmt1 r1 lvl children seen = rowsGo fmt2 r2 lvl children seen := by
  intro children
  induction children with
  | nil => intro seen; rfl
  | cons kv rest ih =>
    intro seen
    obtain ⟨k, v⟩ := kv
    cases v with
    | prim p => simp only [rowsGo, hf, ih]
    | ref j => simp only [rowsGo, hr, ih]

theorem fmt_primitive_neg (m : Int) (hm : m < 0) (p : Prim) :
    fmt_primitive (some m) p = fmt_primitive none p := by
  cases p <;> simp [fmt_primitive, bounded, not_le.mpr hm]

theorem fmt_primitive_none_min (p : Prim) : fmt_primitive none p = fmt_primitive_min p := by
  cases p <;> rfl

theorem objChildren_neg (entries : List (String × Node)) (m : Int) (hm : m < 0) :
    objChildren entries (some m) = objChildren entries none := by
  simp [objChildren, bounded, not_le.mpr hm]

theorem arrChildren_neg (items : List Node) (m : Int) (hm : m < 0) :
    arrChildren items (some m) = arrChildren items none := by
  simp [arrChildren, bounded, not_le.mpr hm]

theorem container_wrap_neg (isArr : Bool) (key : Option PyKey) (ed : Int)
    (lvl size : Nat) (m : Int) (rows : List String) (hm : m < 0) :
    container_wrap isArr key ed lvl size (some m) rows
      = container_wrap isArr key ed lvl size none rows := by
  simp [container_wrap, bounded, not_le.mpr hm]

theorem toHtmlF_mc_neg (m : Int) (hm : m < 0) :
    ∀ (fuel : Nat) (h : Heap) (n : Node) (ed : Int) (lvl : Nat) (seen : List Nat)
      (key : Option PyKey) (ms : Option Int),
      toHtmlF fuel h n ed lvl seen key (some m) ms
        = toHtmlF fuel h n ed lvl seen key none ms := by
  intro fuel
  induction fuel with
  | zero => intro h n ed lvl seen key ms; rfl
  | succ fuel ih =>
    intro h n ed lvl seen key ms
    cases n with
    | prim p => rfl
    | ref i =>
      by_cases hmem : i ∈ seen
      · simp [toHtmlF, hmem]
      · have hcon := rowsGo_congr (fmt_primitive ms) (fmt_primitive ms)
            (fun n k s => toHtmlF fuel h n (max (ed - 1) 0) (lvl + 1) s k (some m) ms)
            (fun n k s => toHtmlF fuel h n (max (ed - 1) 0) (lvl + 1) s k none ms)
            (lvl + 1) (fun _ => rfl)
            (fun n k s => ih h n (max (ed - 1) 0) (lvl + 1) s k ms)
        cases hl : lookupC h i with
        | none => simp [toHtmlF, if_neg hmem, hl]
        | some c =>
          cases c with
          | cobj entries =>
            simp only [toHtmlF, if_neg hmem, hl]
            rw [objChildren_neg entries m hm, hcon]
            cases hrows : rowsGo (fmt_primitive ms)
                (fun n k s => toHtmlF fuel h n (max (ed - 1) 0) (lvl + 1) s k none ms)
                (lvl + 1) (objChildren entries none) (i :: seen) with
            | none => rfl
            | some pr =>
              obtain ⟨rows, s2⟩ := pr
              simp [container_wrap_neg false key ed lvl entries.length m rows hm]
          | carr items =>
            simp only [toHtmlF, if_neg hmem, hl]
            rw [arrChildren_neg items m hm, hcon]
            cases hrows : rowsGo (fmt_primitive ms)
                (fun n k s => toHtmlF fuel h n (max (ed - 1) 0) (lvl + 1) s k none ms)
                (lvl + 1) (arrChildren items none) (i :: seen) with
            | none => rfl
            | some pr =>
              obtain ⟨rows, s2⟩ := pr
              simp [container_wrap_neg true key ed lvl items.length m rows hm]

theorem toHtmlF_ms_neg (m : Int) (hm : m < 0) :
    ∀ (fuel : Nat) (h : Heap) (n : Node) (ed : Int) (lvl : Nat) (seen : List Nat)
      (key : Option PyKey) (mc : Option Int),
      toHtmlF fuel h n ed lvl seen key mc (some m)
        = toHtmlF fuel h n ed lvl seen key mc none := by
  intro fuel
  induction fuel with
  | zero => intro h n ed lvl seen key mc; rfl
  | succ fuel ih =>
    intro h n ed lvl seen key mc
    cases n with
    | prim p => simp [toHtmlF, fmt_primitive_neg m hm]
    | ref i =>
      by_cases hmem : i ∈ seen
      · simp [toHtmlF, hmem]
      · have hcon := rowsGo_congr (fmt_primitive (some m)) (fmt_primitive none)
            (fun n k s => toHtmlF fuel h n (max (ed - 1) 0) (lvl + 1) s k mc (some m))
            (fun n k s => toHtmlF fuel h n (max (ed - 1) 0) (lvl + 1) s k mc none)
            (lvl + 1) (fmt_primitive_neg m hm)
            (fun n k s => ih h n (max (ed - 1) 0) (lvl + 1) s k mc)
        cases hl : lookupC h i with
        | none => simp [toHtmlF, if_neg hmem, hl]
        | some c =>
          cases c with
          | cobj entries =>
            simp only [toHtmlF, if_neg hmem, hl]
            rw [hcon]
          | carr items =>
            simp only [toHtmlF, if_neg hmem, hl]
            rw [hcon]

theorem toHtmlF_none_eq_min :
    ∀ (fuel : Nat) (h : Heap) (n : Node) (ed : Int) (lvl : Nat) (seen : List Nat)
      (key : Option PyKey),
      toHtmlF fuel h n ed lvl seen key none none = toHtmlMinF fuel h n ed lvl seen key := by
  intro fuel
  induction fuel with
  | zero => intro h n ed lvl seen key; rfl
  | succ fuel ih =>
    intro h n ed lvl seen key
    cases n with
    | prim p => simp [toHtmlF, toHtmlMinF, fmt_primitive_none_min]
    | ref i =>
      by_cases hmem : i ∈ seen
      · simp [toHtmlF, toHtmlMinF, hmem]
      · have hcon := rowsGo_congr (fmt_primitive none) fmt_primitive_min
            (fun n k s => toHtmlF fuel h n (max (ed - 1) 0) (lvl + 1) s k none none)
            (fun n k s => toHtmlMinF fuel h n (max (ed - 1) 0) (lvl + 1) s k)
            (lvl + 1) fmt_primitive_none_min
            (fun n k s => ih h n (max (ed - 1) 0) (lvl + 1) s k)
        cases hl : lookupC h i with
        | none => simp [toHtmlF, toHtmlMinF, if_neg hmem, hl]
        | some c =>
          cases c with
          | cobj entries =>
            simp only [toHtmlF, toHtmlMinF, if_neg hmem, hl]
            rw [hcon]
            cases hrows : rowsGo fmt_primitive_min
                (fun n k s => toHtmlMinF fuel h n (max (ed - 1) 0) (lvl + 1) s k)
                (lvl + 1) (objChildren entries none) (i :: seen) with
            | none => rfl
            | some pr =>
              obtain ⟨rows, s2⟩ := pr
              simp [container_wrap_all false key ed lvl entries.length none rows rfl]
          | carr items =>
            simp only [toHtmlF, toHtmlMinF, if_neg hmem, hl]
            rw [hcon]
            cases hrows : rowsGo fmt_primitive_min
                (fun n k s => toHtmlMinF fuel h n (max (ed - 1) 0) (lvl + 1) s k)
                (lvl + 1) (arrChildren items none) (i :: seen) with
            | none => rfl
            | some pr =>
              obtain ⟨rows, s2⟩ := pr
              simp [container_wrap_all true key ed lvl items.length none rows rfl]

theorem to_html_mc_neg (h : Heap) (n : Node) (ed : Int) (lvl : Nat) (seen : List Nat)
    (key : Option PyKey) (m : Int) (ms : Option Int) (hm : m < 0) :
    to_html h n ed lvl seen key (some m) ms = to_html h n ed lvl seen key none ms := by
  unfold to_html
  rw [toHtmlF_mc_neg m hm]

theorem to_html_ms_neg (h : Heap) (n : Node) (ed : Int) (lvl : Nat) (seen : List Nat)
    (key : Option PyKey) (mc : Option Int) (m : Int) (hm : m < 0) :
    to_html h n ed lvl seen key mc (some m) = to_html h n ed lvl seen key mc none := by
  unfold to_html
  rw [toHtmlF_ms_neg m hm]

theorem string_append_cancel_left (a : String) {b c : String} (h : a ++ b = a ++ c) :
    b = c := by
  have hd := congrArg String.data h
  rw [String.data_append, String.data_append] at hd
  have hbc := List.append_cancel_left hd
  cases b; cases c; exact congrArg String.mk hbc

theorem string_append_cancel_right (a : String) {b c : String} (h : b ++ a = c ++ a) :
    b = c := by
  have hd := congrArg String.data h
  rw [String.data_append, String.data_append] at hd
  have hbc := List.append_cancel_right hd
  cases b; cases c; exact congrArg String.mk hbc

/-- C6 counterexample: on a 101-element array, rendering with
`maxChildren = -1` differs from rendering with the option omitted (the
omitted-option default is `maxChildren = 100`, which truncates), even with an
identical scope identifier, so negative and omitted are not interchangeable. -/
theorem negative_limits_counterexample :
    json_to_html_tree "jt-00000000" [(0, .carr (List.replicate 101 (.prim .pnone)))]
        (.ref 0) none 1 (some 100) (some 2000)
      ≠ json_to_html_tree "jt-00000000" [(0, .carr (List.replicate 101 (.prim .pnone)))]
        (.ref 0) none 1 (some (-1)) (some 2000) := by
  have hne : to_html [(0, .carr (List.replicate 101 (.prim .pnone)))] (.ref 0) 1 0 []
        (Option.map PyKey.str none) (some 100) (some 2000)
      ≠ to_html [(0, .carr (List.replicate 101 (.prim .pnone)))] (.ref 0) 1 0 []
        (Option.map PyKey.str none) (some (-1)) (some 2000) := by
    decide
  intro heq
  unfold json_to_html_tree at heq
  have h1 := string_append_cancel_right _ heq
  exact hne (string_append_cancel_left _ h1)

/-- C6 amended: a negative `maxChildren` produces output identical to
`maxChildren = None` (unlimited — no child truncation), and likewise a
negative `maxStringLength` is identical to `None` (no string truncation); the
omitted-option defaults (`100` / `2000`), by contrast, do truncate. -/
theorem negative_limits_unlimited (uid : String) (h : Heap) (obj : Node)
    (key : Option String) (ed : Int) (mc ms : Option Int) (m : Int) (hm : m < 0) :
    json_to_html_tree uid h obj key ed (some m) ms
      = json_to_html_tree uid h obj key ed none ms
    ∧ json_to_html_tree uid h obj key ed mc (some m)
      = json_to_html_tree uid h obj key ed mc none := by
  constructor
  · unfold json_to_html_tree
    rw [to_html_mc_neg h obj ed 0 [] (key.map PyKey.str) m ms hm]
  · unfold json_to_html_tree
    rw [to_html_ms_neg h obj ed 0 [] (key.map PyKey.str) mc m hm]

/-- Witness for `negative_limits_unlimited`: `-1` behaves as unlimited on the
truncating example. -/
theorem negative_limits_unlimited_witness :
    (-1 : Int) < 0
    ∧ json_to_html_tree "jt-00000000" [(0, .carr (List.replicate 101 (.prim .pnone)))]
        (.ref 0) none 1 (some (-1)) (some 2000)
      = json_to_html_tree "jt-00000000" [(0, .carr (List.replicate 101 (.prim .pnone)))]
        (.ref 0) none 1 none (some 2000) :=
  ⟨by decide,
    (negative_limits_unlimited "jt-00000000" [(0, .carr (List.replicate 101 (.prim .pnone)))]
      (.ref 0) none 1 none (some 2000) (-1) (by decide)).1⟩

/-- C7: with truncation disabled (absent or negative `maxChildren` and
`maxStringLength`), the extended variant's recursive body `_to_html` returns
exactly the same markup (and the same final visited set) as the minimal
variant's `_to_html`, for every input, depth, level and root key. -/
theorem extended_matches_minimal (fuel : Nat) (h : Heap) (n : Node) (ed : Int)
    (lvl : Nat) (seen : List Nat) (key : Option PyKey) (mc ms : Option Int)
    (hmc : mc = none ∨ ∃ m, mc = some m ∧ m < 0)
    (hms : ms = none ∨ ∃ m, ms = some m ∧ m < 0) :
    toHtmlF fuel h n ed lvl seen key mc ms = toHtmlMinF fuel h n ed lvl seen key
    ∧ to_html h n ed lvl seen key mc ms = to_html_min h n ed lvl seen key := by
  have hstep : toHtmlF fuel h n ed lvl seen key mc ms
      = toHtmlF fuel h n ed lvl seen key none none := by
    rcases hmc with hmc | ⟨m, hmc, hmneg⟩ <;> rcases hms with hms | ⟨m2, hms, hm2neg⟩ <;>
      subst hmc <;> subst hms
    · rfl
    · rw [toHtmlF_ms_neg m2 hm2neg]
    · rw [toHtmlF_mc_neg m hmneg]
    · rw [toHtmlF_mc_neg m hmneg, toHtmlF_ms_neg m2 hm2neg]
  constructor
  · rw [hstep, toHtmlF_none_eq_min]
  · have hstep2 : ∀ f2, toHtmlF f2 h n ed lvl seen key mc ms
        = toHtmlMinF f2 h n ed lvl seen key := by
      intro f2
      have : toHtmlF f2 h n ed lvl seen key mc ms
          = toHtmlF f2 h n ed lvl seen key none none := by
        rcases hmc with hmc | ⟨m, hmc, hmneg⟩ <;> rcases hms with hms | ⟨m2, hms, hm2neg⟩ <;>
          subst hmc <;> subst hms
        · rfl
        · rw [toHtmlF_ms_neg m2 hm2neg]
        · rw [toHtmlF_mc_neg m hmneg]
        · rw [toHtmlF_mc_neg m hmneg, toHtmlF_ms_neg m2 hm2neg]
      rw [this, toHtmlF_none_eq_min]
    unfold to_html to_html_min
    rw [hstep2]

/-- Witness for `extended_matches_minimal` at a concrete nested structure with
`maxChildren = -1`, `maxStringLength` omitted. -/
theorem extended_matches_minimal_witness :
    toHtmlF 3 [(0, .cobj [("a", .ref 1)]), (1, .carr [.prim (.pstr "x")])]
        (.ref 0) 1 0 [] none (some (-1)) none
      = toHtmlMinF 3 [(0, .cobj [("a", .ref 1)]), (1, .carr [.prim (.pstr "x")])]
        (.ref 0) 1 0 [] none :=
  (extended_matches_minimal 3 [(0, .cobj [("a", .ref 1)]), (1, .carr [.prim (.pstr "x")])]
    (.ref 0) 1 0 [] none (some (-1)) none (Or.inr ⟨-1, rfl, by decide⟩) (Or.inl rfl)).1

/-! ### C4: termination on arbitrary (including cyclic) value graphs -/

theorem lookupC_mem {h : Heap} {i : Nat} {c : Container} (hl : lookupC h i = some c) :
    i ∈ h.map Prod.fst := by
  induction h with
  | nil => simp [lookupC] at hl
  | cons x t ih =>
    obtain ⟨j, c2⟩ := x
    by_cases hj : j = i
    · subst hj
      simp
    · simp only [lookupC, if_neg hj] at hl
      simp [ih hl]

theorem length_filter_le_of_imp (l : List Nat) (p q : Nat → Bool)
    (hpq : ∀ x, p x = true → q x = true) :
    (l.filter p).length ≤ (l.filter q).length := by
  induction l with
  | nil => simp
  | cons a t ih =>
    by_cases hp : p a = true
    · have hq := hpq a hp
      simp only [List.filter_cons, hp, hq, if_pos, List.length_cons]
      omega
    · cases hqa : q a with
      | false =>
        simp only [List.filter_cons, Bool.eq_false_iff.mpr hp, hqa, Bool.false_eq_true,
          if_false]
        exact ih
      | true =>
        simp only [List.filter_cons, Bool.eq_false_iff.mpr hp, hqa, Bool.false_eq_true,
          if_false, if_pos, List.length_cons]
        omega

theorem length_filter_lt_of_mem (l : List Nat) (p q : Nat → Bool)
    (hpq : ∀ x, p x = true → q x = true) (i : Nat) (hi : i ∈ l)
    (hqi : q i = true) (hpi : p i = false) :
    (l.filter p).length < (l.filter q).length := by
  induction l with
  | nil => simp at hi
  | cons a t ih =>
    rcases List.mem_cons.mp hi with ha | hit
    · subst ha
      simp only [List.filter_cons, hpi, hqi, if_pos, Bool.false_eq_true, if_false,
        List.length_cons]
      have := length_filter_le_of_imp t p q hpq
      omega
    · by_cases hp : p a = true
      · have hq := hpq a hp
        simp only [List.filter_cons, hp, hq, if_pos, List.length_cons]
        exact Nat.succ_lt_succ (ih hit)
      · cases hqa : q a with
        | false =>
          simp only [List.filter_cons, Bool.eq_false_iff.mpr hp, hqa, Bool.false_eq_true,
            if_false]
          exact ih hit
        | true =>
          simp only [List.filter_cons, Bool.eq_false_iff.mpr hp, hqa, Bool.false_eq_true,
            if_false, if_pos, List.length_cons]
          have := ih hit
          omega

theorem unvisited_cons_le (h : Heap) (i : Nat) (seen : List Nat) :
    unvisited h (i :: seen) ≤ unvisited h seen := by
  refine length_filter_le_of_imp _ _ _ ?_
  intro x hx
  simp only [Bool.not_eq_true', decide_eq_false_iff_not] at hx ⊢
  intro hxs
  exact hx (List.mem_cons_of_mem i hxs)

theorem unvisited_cons_lt {h : Heap} {i : Nat} {c : Container} (seen : List Nat)
    (hl : lookupC h i = some c) (hni : i ∉ seen) :
    unvisited h (i :: seen) < unvisited h seen := by
  refine length_filter_lt_of_mem _ _ _ ?_ i ?_ ?_ ?_
  · intro x hx
    simp only [Bool.not_eq_true', decide_eq_false_iff_not] at hx ⊢
    intro hxs
    exact hx (List.mem_cons_of_mem i hxs)
  · exact List.mem_dedup.mpr (lookupC_mem hl)
  · simp [hni]
  · simp

theorem rowsGo_suff (h : Heap) (fuel : Nat) (fmtP : Prim → String)
    (render : Node → Option PyKey → List Nat → Option (String × List Nat)) (lvl : Nat)
    (hrender : ∀ n k s, unvisited h s < fuel →
      ∃ out s', render n k s = some (out, s') ∧ unvisited h s' ≤ unvisited h s) :
    ∀ (children : List (PyKey × Node)) (seen : List Nat), unvisited h seen < fuel →
      ∃ rows seen', rowsGo fmtP render lvl children seen = some (rows, seen')
        ∧ unvisited h seen' ≤ unvisited h seen := by
  intro children
  induction children with
  | nil => intro seen hseen; exact ⟨[], seen, rfl, le_refl _⟩
  | cons kv rest ih =>
    intro seen hseen
    obtain ⟨k, v⟩ := kv
    cases v with
    | prim p =>
      obtain ⟨rows, s', hrun, hle⟩ := ih seen hseen
      exact ⟨leaf_html lvl (key_prefix_html (some k)) (fmtP p) :: rows, s',
        by simp [rowsGo, hrun], hle⟩
    | ref j =>
      obtain ⟨out, s1, hr, hle1⟩ := hrender (.ref j) (some k) seen hseen
      obtain ⟨rows, s2, hrest, hle2⟩ := ih s1 (lt_of_le_of_lt hle1 hseen)
      exact ⟨out :: rows, s2, by simp [rowsGo, hr, hrest], le_trans hle2 hle1⟩

theorem toHtmlF_suff :
    ∀ (fuel : Nat) (h : Heap) (n : Node) (ed : Int) (lvl : Nat) (seen : List Nat)
      (key : Option PyKey) (mc ms : Option Int), unvisited h seen < fuel →
      ∃ out seen', toHtmlF fuel h n ed lvl seen key mc ms = some (out, seen')
        ∧ unvisited h seen' ≤ unvisited h seen := by
  intro fuel
  induction fuel with
  | zero => intro h n ed lvl seen key mc ms hlt; omega
  | succ fuel ih =>
    intro h n ed lvl seen key mc ms hlt
    cases n with
    | prim p => exact ⟨_, seen, rfl, le_refl _⟩
    | ref i =>
      by_cases hmem : i ∈ seen
      · exact ⟨circular_html, seen, by simp [toHtmlF, hmem], le_refl _⟩
      · cases hl : lookupC h i with
        | none =>
          exact ⟨"", i :: seen, by simp [toHtmlF, hmem, hl], unvisited_cons_le h i seen⟩
        | some c =>
          have hlt2 : unvisited h (i :: seen) < fuel := by
            have := unvisited_cons_lt seen hl hmem
            omega
          have hrender : ∀ n2 k2 s2, unvisited h s2 < fuel →
              ∃ out s', toHtmlF fuel h n2 (max (ed - 1) 0) (lvl + 1) s2 k2 mc ms
                  = some (out, s')
                ∧ unvisited h s' ≤ unvisited h s2 :=
            fun n2 k2 s2 hs2 => ih h n2 (max (ed - 1) 0) (lvl + 1) s2 k2 mc ms hs2
          cases c with
          | cobj entries =>
            obtain ⟨rows, seen2, hrows, hle⟩ := rowsGo_suff h fuel
              (fmt_primitive ms)
              (fun n2 k2 s2 => toHtmlF fuel h n2 (max (ed - 1) 0) (lvl + 1) s2 k2 mc ms)
              (lvl + 1) hrender (objChildren entries mc) (i :: seen) hlt2
            refine ⟨container_wrap false key ed lvl entries.length mc rows, seen2, ?_, ?_⟩
            · simp only [toHtmlF, if_neg hmem, hl, hrows]
            · exact le_trans hle (unvisited_cons_le h i seen)
          | carr items =>
            obtain ⟨rows, seen2, hrows, hle⟩ := rowsGo_suff h fuel
              (fmt_primitive ms)
              (fun n2 k2 s2 => toHtmlF fuel h n2 (max (ed - 1) 0) (lvl + 1) s2 k2 mc ms)
              (lvl + 1) hrender (arrChildren items mc) (i :: seen) hlt2
            refine ⟨container_wrap true key ed lvl items.length mc rows, seen2, ?_, ?_⟩
            · simp only [toHtmlF, if_neg hmem, hl, hrows]
            · exact le_trans hle (unvisited_cons_le h i seen)

/-- C4: for every heap and start node — cyclic graphs included — fuel equal to
the number of unvisited container identities plus one makes the recursive
renderer return a markup string (this is the termination argument: each
recursive visit of a new container shrinks the unvisited set), and the total
renderer `to_html` returns exactly that string; at the point of re-encounter
the `[Circular]` marker is emitted, shown on a list containing itself and on
two mappings referencing each other. -/
theorem renderer_terminates :
    (∀ (h : Heap) (n : Node) (ed : Int) (lvl : Nat) (seen : List Nat) (key : Option PyKey)
      (mc ms : Option Int),
      ∃ out seen',
        toHtmlF (unvisited h seen + 1) h n ed lvl seen key mc ms = some (out, seen')
        ∧ to_html h n ed lvl seen key mc ms = out)
    ∧ CP "[Circular]"
        (to_html [(0, .carr [.ref 0])] (.ref 0) 1 0 [] none (some 100) (some 2000)) = 1
    ∧ CP "[Circular]"
        (to_html [(0, .cobj [("b", .ref 1)]), (1, .cobj [("a", .ref 0)])]
          (.ref 0) 1 0 [] none (some 100) (some 2000)) = 1 := by
  refine ⟨?_, by decide, by decide⟩
  intro h n ed lvl seen key mc ms
  obtain ⟨out, seen', hrun, _⟩ :=
    toHtmlF_suff (unvisited h seen + 1) h n ed lvl seen key mc ms (Nat.lt_succ_self _)
  refine ⟨out, seen', hrun, ?_⟩
  unfold to_html
  rw [hrun]


/-! Counting occurrences in continuation form. -/

theorem CP_of_CPc {tok : List Char} {s : String} {c : Nat} (h : CPc tok s c) :
    countPos tok s.data = c := by
  have h2 := h []
  simpa [countPos] using h2

theorem countPos_cons (tok : List Char) (c : Char) (rest : List Char) :
    countPos tok (c :: rest) = (if tok.isPrefixOf (c :: rest) then 1 else 0) + countPos tok rest :=
  rfl

theorem isPrefixOf_append_left {tok lit b : List Char} (hlen : tok.length ≤ lit.length) :
    tok.isPrefixOf (lit ++ b) = tok.isPrefixOf lit := by
  cases hb : tok.isPrefixOf lit with
  | true =>
    have hp : tok <+: lit := List.isPrefixOf_iff_prefix.mp hb
    have : tok <+: lit ++ b := hp.trans (List.prefix_append lit b)
    exact List.isPrefixOf_iff_prefix.mpr this
  | false =>
    cases hb2 : tok.isPrefixOf (lit ++ b) with
    | false => rfl
    | true =>
      exfalso
      have hp : tok <+: lit ++ b := List.isPrefixOf_iff_prefix.mp hb2
      have he : tok = (lit ++ b).take tok.length := List.prefix_iff_eq_take.mp hp
      rw [List.take_append_of_le_length hlen] at he
      have : tok <+: lit := List.prefix_iff_eq_take.mpr he
      rw [List.isPrefixOf_iff_prefix.mpr this] at hb
      exact Bool.true_eq_false.mp hb

theorem isPrefixOf_take2_false {tok lit b : List Char} (h2 : tok.take 2 ≠ lit.take 2)
    (hlitlen : 2 ≤ lit.length) (htoklen : 2 ≤ tok.length) :
    tok.isPrefixOf (lit ++ b) = false := by
  cases hb : tok.isPrefixOf (lit ++ b) with
  | false => rfl
  | true =>
    exfalso
    have hp : tok <+: lit ++ b := List.isPrefixOf_iff_prefix.mp hb
    have he : tok = (lit ++ b).take tok.length := List.prefix_iff_eq_take.mp hp
    apply h2
    have h3 : tok.take 2 = ((lit ++ b).take tok.length).take 2 := by rw [← he]
    rw [List.take_take, min_eq_left htoklen] at h3
    rw [h3, List.take_append_of_le_length hlitlen]

theorem countPos_skip {tok : List Char} (t0 : tok.head? = some '<') :
    ∀ (a b : List Char), (∀ c ∈ a, c ≠ '<') → countPos tok (a ++ b) = countPos tok b := by
  intro a
  induction a with
  | nil => intro b _; rfl
  | cons c a2 ih =>
    intro b hc
    have hcne : c ≠ '<' := hc c (by simp)
    have hpre : tok.isPrefixOf (c :: (a2 ++ b)) = false := by
      cases tok with
      | nil => simp at t0
      | cons x ts =>
        simp only [List.head?_cons, Option.some.injEq] at t0
        subst t0
        simp only [List.isPrefixOf]
        rw [beq_eq_false_iff_ne.mpr (Ne.symm hcne)]
        rfl
    rw [List.cons_append, countPos_cons, hpre]
    simp only [Bool.false_eq_true, if_false, Nat.zero_add]
    exact ih b (fun d hd => hc d (by simp [hd]))

theorem CPc_append {tok : List Char} {a b : String} {ca cb : Nat}
    (ha : CPc tok a ca) (hb : CPc tok b cb) : CPc tok (a ++ b) (ca + cb) := by
  intro rest
  rw [String.data_append, List.append_assoc, ha, hb]
  omega

theorem CPc_clean {tok : List Char} (t0 : tok.head? = some '<') {s : String}
    (h : ∀ c ∈ s.data, c ≠ '<') : CPc tok s 0 := by
  intro rest
  rw [countPos_skip t0 _ _ h]
  omega

theorem CPc_lit {tok : List Char} (t0 : tok.head? = some '<') (lit : String) (d : Nat)
    (hhead : lit.data.head? = some '<')
    (htail : ∀ c ∈ lit.data.tail, c ≠ '<')
    (hind : ∀ b, (if tok.isPrefixOf (lit.data ++ b) then 1 else 0) = d) :
    CPc tok lit d := by
  intro rest
  cases hl : lit.data with
  | nil => rw [hl] at hhead; simp at hhead
  | cons c l2 =>
    have hskip : countPos tok (l2 ++ rest) = countPos tok rest := by
      refine countPos_skip t0 l2 rest ?_
      intro x hx
      refine htail x ?_
      rw [hl]
      exact hx
    have hind2 := hind rest
    rw [hl] at hind2
    rw [List.cons_append, countPos_cons, hskip, ← List.cons_append, hind2]

theorem TagTok_head {tok : List Char} {dD dL : Nat} (h : TagTok tok dD dL) :
    tok.head? = some '<' := by
  obtain ⟨h2, _⟩ := h
  cases tok with
  | nil => simp at h2
  | cons x ts =>
    cases ts with
    | nil => simp at h2
    | cons y ts2 =>
      simp only [List.take_succ_cons, List.take_zero] at h2
      have hx : x = '<' := by
        have := congrArg (fun l => l.head?) h2
        simpa using this
      simp [hx]

theorem CPc_lit_nd {tok : List Char} {dD dL : Nat} (hT : TagTok tok dD dL) (lit : String)
    (hhead : lit.data.head? = some '<')
    (htail : ∀ c ∈ lit.data.tail, c ≠ '<')
    (h2 : lit.data.take 2 ≠ ['<', 'd'])
    (hlen : 2 ≤ lit.data.length) :
    CPc tok lit 0 := by
  refine CPc_lit (TagTok_head hT) lit 0 hhead htail ?_
  intro b
  rw [isPrefixOf_take2_false (by rw [hT.1]; exact fun hx => h2 hx.symm) hlen hT.2.1]
  rfl

theorem CPc_dlit {tok : List Char} {dD dL : Nat} (hT : TagTok tok dD dL) :
    CPc tok "<details class=\"jt-details\"" dD := by
  refine CPc_lit (TagTok_head hT) _ dD (by decide) (by decide) ?_
  intro b
  rw [isPrefixOf_append_left (by exact le_trans hT.2.2.1 (by decide))]
  exact hT.2.2.2.1

theorem CPc_llit {tok : List Char} {dD dL : Nat} (hT : TagTok tok dD dL) :
    CPc tok "<div class=\"jt-leaf\" style=\"margin-left:" dL := by
  refine CPc_lit (TagTok_head hT) _ dL (by decide) (by decide) ?_
  intro b
  rw [isPrefixOf_append_left (by exact le_trans hT.2.2.1 (by decide))]
  exact hT.2.2.2.2

/-! Cleanliness of the escaped/numeric text pieces, and counting lemmas for
each markup fragment template. -/

theorem escChar_nolt (c : Char) : ∀ d ∈ (escChar c).data, d ≠ '<' ∧ d ≠ '>' := by
  by_cases h1 : c = '&'
  · simp only [escChar, if_pos h1]
    decide
  · by_cases h2 : c = '<'
    · simp only [escChar, if_neg h1, if_pos h2]
      decide
    · by_cases h3 : c = '>'
      · simp only [escChar, if_neg h1, if_neg h2, if_pos h3]
        decide
      · simp only [escChar, if_neg h1, if_neg h2, if_neg h3]
        intro d hd
        have : d = c := by simpa [String.singleton] using hd
        subst this
        exact ⟨h2, h3⟩

theorem string_join_cons (r : String) (rs : List String) :
    String.join (r :: rs) = r ++ String.join rs := by
  have haux : ∀ (l : List String) (acc : String),
      List.foldl (fun a s => a ++ s) acc l = acc ++ List.foldl (fun a s => a ++ s) "" l := by
    intro l
    induction l with
    | nil => intro acc; simp
    | cons x xs ih =>
      intro acc
      simp only [List.foldl_cons]
      rw [ih (acc ++ x), ih ("" ++ x), String.empty_append, String.append_assoc]
  simp only [String.join, List.foldl_cons]
  rw [haux rs ("" ++ r), String.empty_append]

theorem esc_nolt (s : String) : ∀ c ∈ (esc s).data, c ≠ '<' ∧ c ≠ '>' := by
  have haux : ∀ (l : List Char), ∀ c ∈ (String.join (l.map escChar)).data,
      c ≠ '<' ∧ c ≠ '>' := by
    intro l
    induction l with
    | nil => intro c hc; simp [String.join] at hc
    | cons x xs ih =>
      intro c hc
      rw [List.map_cons, string_join_cons, String.data_append] at hc
      rcases List.mem_append.mp hc with h | h
      · exact escChar_nolt x c h
      · exact ih c h
  exact haux s.data

theorem digitChar_nolt (d : Nat) : digitChar d ≠ '<' ∧ digitChar d ≠ '>' := by
  unfold digitChar
  split <;> exact ⟨by decide, by decide⟩

theorem natDigitsAux_nolt : ∀ (fuel n : Nat), ∀ c ∈ natDigitsAux fuel n,
    c ≠ '<' ∧ c ≠ '>' := by
  intro fuel
  induction fuel with
  | zero => intro n c hc; simp [natDigitsAux] at hc
  | succ f ih =>
    intro n c hc
    unfold natDigitsAux at hc
    by_cases hn : n < 10
    · rw [if_pos hn] at hc
      have : c = digitChar n := by simpa using hc
      subst this
      exact digitChar_nolt n
    · rw [if_neg hn] at hc
      rcases List.mem_append.mp hc with h | h
      · exact ih (n / 10) c h
      · have : c = digitChar (n % 10) := by simpa using h
        subst this
        exact digitChar_nolt (n % 10)

theorem natRepr_nolt (n : Nat) : ∀ c ∈ (natRepr n).data, c ≠ '<' ∧ c ≠ '>' := by
  intro c hc
  exact natDigitsAux_nolt (n + 1) n c hc

theorem intRepr_nolt (n : Int) : ∀ c ∈ (intRepr n).data, c ≠ '<' ∧ c ≠ '>' := by
  intro c hc
  unfold intRepr at hc
  by_cases hn : n < 0
  · rw [if_pos hn, String.data_append] at hc
    rcases List.mem_append.mp hc with h | h
    · refine ⟨?_, ?_⟩ <;> · have : c = '-' := by simpa using h
                            subst this
                            decide
    · exact natRepr_nolt _ c h
  · rw [if_neg hn] at hc
    exact natRepr_nolt _ c hc

theorem indentRem_nolt (n : Nat) : ∀ c ∈ (indentRem n).data, c ≠ '<' ∧ c ≠ '>' := by
  intro c hc
  unfold indentRem at hc
  by_cases hn : n % 2 = 0
  · rw [if_pos hn, String.data_append] at hc
    rcases List.mem_append.mp hc with h | h
    · exact natRepr_nolt _ c h
    · have h2 : c = '.' ∨ c = '0' := by simpa using h
      rcases h2 with rfl | rfl <;> exact ⟨by decide, by decide⟩
  · rw [if_neg hn, String.data_append] at hc
    rcases List.mem_append.mp hc with h | h
    · exact natRepr_nolt _ c h
    · have h2 : c = '.' ∨ c = '5' := by simpa using h
      rcases h2 with rfl | rfl <;> exact ⟨by decide, by decide⟩

theorem CPc_emptyS {tok : List Char} : CPc tok "" 0 := by
  intro rest
  have he : ("" : String).data = [] := rfl
  rw [he]
  simp only [List.nil_append]
  omega

theorem CPc_append0 {tok : List Char} {a b : String} (ha : CPc tok a 0) (hb : CPc tok b 0) :
    CPc tok (a ++ b) 0 := by
  have h := CPc_append ha hb
  simpa using h

/-- Counting the key/index prefix: contributes no `<d`-tag occurrence. -/
theorem CPc_key {tok : List Char} {dD dL : Nat} (hT : TagTok tok dD dL)
    (k : Option PyKey) : CPc tok (key_prefix_html k) 0 := by
  have t0 := TagTok_head hT
  cases k with
  | none => exact CPc_emptyS
  | some pk =>
    cases pk with
    | idx n =>
      have e1 : ("]</span><span class=\"jt-punct\">: </span>" : String)
          = "]" ++ "</span>" ++ "<span class=\"jt-punct\">: " ++ "</span>" := by decide
      show CPc tok ("<span class=\"jt-key\">[" ++ natRepr n
        ++ "]</span><span class=\"jt-punct\">: </span>") 0
      rw [e1]
      refine CPc_append0 (CPc_append0 ?_ ?_)
        (CPc_append0 (CPc_append0 (CPc_append0 ?_ ?_) ?_) ?_)
      · exact CPc_lit_nd hT _ (by decide) (by decide) (by decide) (by decide)
      · exact CPc_clean t0 (fun c hc => (natRepr_nolt n c hc).1)
      · exact CPc_clean t0 (by decide)
      · exact CPc_lit_nd hT _ (by decide) (by decide) (by decide) (by decide)
      · exact CPc_lit_nd hT _ (by decide) (by decide) (by decide) (by decide)
      · exact CPc_lit_nd hT _ (by decide) (by decide) (by decide) (by decide)
    | str s =>
      have e1 : ("\"</span><span class=\"jt-punct\">: </span>" : String)
          = "\"" ++ "</span>" ++ "<span class=\"jt-punct\">: " ++ "</span>" := by decide
      show CPc tok ("<span class=\"jt-key\">\"" ++ esc s
        ++ "\"</span><span class=\"jt-punct\">: </span>") 0
      rw [e1]
      refine CPc_append0 (CPc_append0 ?_ ?_)
        (CPc_append0 (CPc_append0 (CPc_append0 ?_ ?_) ?_) ?_)
      · exact CPc_lit_nd hT _ (by decide) (by decide) (by decide) (by decide)
      · exact CPc_clean t0 (fun c hc => (esc_nolt s c hc).1)
      · exact CPc_clean t0 (by decide)
      · exact CPc_lit_nd hT _ (by decide) (by decide) (by decide) (by decide)
      · exact CPc_lit_nd hT _ (by decide) (by decide) (by decide) (by decide)
      · exact CPc_lit_nd hT _ (by decide) (by decide) (by decide) (by decide)

/-- Counting a formatted primitive: contributes no `<d`-tag occurrence. -/
theorem CPc_fmt {tok : List Char} {dD dL : Nat} (hT : TagTok tok dD dL)
    (ms : Option Int) (p : Prim) (hp : cleanP p) : CPc tok (fmt_primitive ms p) 0 := by
  have t0 := TagTok_head hT
  have hclose : CPc tok "</span>" 0 :=
    CPc_lit_nd hT _ (by decide) (by decide) (by decide) (by decide)
  cases p with
  | pstr s =>
    cases hb : bounded ms with
    | none =>
      have he : fmt_primitive ms (.pstr s)
          = "<span class=\"jt-str\">\"" ++ esc s ++ "\"</span>" := by
        simp [fmt_primitive, hb]
      have e1 : ("\"</span>" : String) = "\"" ++ "</span>" := by decide
      rw [he, e1]
      exact CPc_append0 (CPc_append0
        (CPc_lit_nd hT _ (by decide) (by decide) (by decide) (by decide))
        (CPc_clean t0 (fun c hc => (esc_nolt s c hc).1)))
        (CPc_append0 (CPc_clean t0 (by decide)) hclose)
    | some m =>
      by_cases hlen : m < s.length
      · have he : fmt_primitive ms (.pstr s)
            = "<span class=\"jt-str jt-str-trunc\">\"" ++ esc (String.mk (s.data.take m))
                ++ "...\"</span>" := by
          simp [fmt_primitive, hb, hlen]
        have e1 : ("...\"</span>" : String) = "...\"" ++ "</span>" := by decide
        rw [he, e1]
        exact CPc_append0 (CPc_append0
          (CPc_lit_nd hT _ (by decide) (by decide) (by decide) (by decide))
          (CPc_clean t0 (fun c hc => (esc_nolt _ c hc).1)))
          (CPc_append0 (CPc_clean t0 (by decide)) hclose)
      · have he : fmt_primitive ms (.pstr s)
            = "<span class=\"jt-str\">\"" ++ esc s ++ "\"</span>" := by
          simp [fmt_primitive, hb, hlen]
        have e1 : ("\"</span>" : String) = "\"" ++ "</span>" := by decide
        rw [he, e1]
        exact CPc_append0 (CPc_append0
          (CPc_lit_nd hT _ (by decide) (by decide) (by decide) (by decide))
          (CPc_clean t0 (fun c hc => (esc_nolt s c hc).1)))
          (CPc_append0 (CPc_clean t0 (by decide)) hclose)
  | pnone =>
    show CPc tok "<span class=\"jt-null\">null</span>" 0
    have e1 : ("<span class=\"jt-null\">null</span>" : String)
        = "<span class=\"jt-null\">null" ++ "</span>" := by decide
    rw [e1]
    exact CPc_append0 (CPc_lit_nd hT _ (by decide) (by decide) (by decide) (by decide)) hclose
  | pbool b =>
    cases b with
    | true =>
      show CPc tok "<span class=\"jt-bool\">true</span>" 0
      have e1 : ("<span class=\"jt-bool\">true</span>" : String)
          = "<span class=\"jt-bool\">true" ++ "</span>" := by decide
      rw [e1]
      exact CPc_append0 (CPc_lit_nd hT _ (by decide) (by decide) (by decide) (by decide)) hclose
    | false =>
      show CPc tok "<span class=\"jt-bool\">false</span>" 0
      have e1 : ("<span class=\"jt-bool\">false</span>" : String)
          = "<span class=\"jt-bool\">false" ++ "</span>" := by decide
      rw [e1]
      exact CPc_append0 (CPc_lit_nd hT _ (by decide) (by decide) (by decide) (by decide)) hclose
  | pint n =>
    show CPc tok ("<span class=\"jt-num\">" ++ intRepr n ++ "</span>") 0
    exact CPc_append0 (CPc_append0
      (CPc_lit_nd hT _ (by decide) (by decide) (by decide) (by decide))
      (CPc_clean t0 (fun c hc => (intRepr_nolt n c hc).1))) hclose
  | pfloat r =>
    show CPc tok ("<span class=\"jt-num\">" ++ r ++ "</span>") 0
    exact CPc_append0 (CPc_append0
      (CPc_lit_nd hT _ (by decide) (by decide) (by decide) (by decide))
      (CPc_clean t0 (fun c hc => (hp c hc).1))) hclose
  | popq r =>
    show CPc tok ("<span>" ++ esc r ++ "</span>") 0
    exact CPc_append0 (CPc_append0
      (CPc_lit_nd hT _ (by decide) (by decide) (by decide) (by decide))
      (CPc_clean t0 (fun c hc => (esc_nolt r c hc).1))) hclose

theorem CPc_count_eq {tok : List Char} {s : String} {c c' : Nat}
    (h : CPc tok s c) (he : c = c') : CPc tok s c' := he ▸ h

/-- Counting a mapping summary label: no `<d`-tag occurrence. -/
theorem CPc_label_obj {tok : List Char} {dD dL : Nat} (hT : TagTok tok dD dL)
    (key : Option PyKey) (cnt : String) (hcnt : ∀ c ∈ cnt.data, c ≠ '<') :
    CPc tok (summary_obj key cnt) 0 := by
  have t0 := TagTok_head hT
  have e1 : ("\x7b\x7d Object <span class=\"jt-punct\">(" : String)
      = "\x7b\x7d Object " ++ "<span class=\"jt-punct\">(" := by decide
  have e2 : (")</span>" : String) = ")" ++ "</span>" := by decide
  show CPc tok (key_prefix_html key ++ "\x7b\x7d Object <span class=\"jt-punct\">("
    ++ cnt ++ ")</span>") 0
  rw [e1, e2]
  refine CPc_append0 (CPc_append0 (CPc_append0 (CPc_key hT key)
    (CPc_append0 ?_ ?_)) ?_) (CPc_append0 ?_ ?_)
  · exact CPc_clean t0 (by decide)
  · exact CPc_lit_nd hT _ (by decide) (by decide) (by decide) (by decide)
  · exact CPc_clean t0 hcnt
  · exact CPc_clean t0 (by decide)
  · exact CPc_lit_nd hT _ (by decide) (by decide) (by decide) (by decide)

/-- Counting a sequence summary label: no `<d`-tag occurrence. -/
theorem CPc_label_arr {tok : List Char} {dD dL : Nat} (hT : TagTok tok dD dL)
    (key : Option PyKey) (cnt : String) (hcnt : ∀ c ∈ cnt.data, c ≠ '<') :
    CPc tok (summary_arr key cnt) 0 := by
  have t0 := TagTok_head hT
  have e1 : ("[] Array <span class=\"jt-punct\">(" : String)
      = "[] Array " ++ "<span class=\"jt-punct\">(" := by decide
  have e2 : (")</span>" : String) = ")" ++ "</span>" := by decide
  show CPc tok (key_prefix_html key ++ "[] Array <span class=\"jt-punct\">("
    ++ cnt ++ ")</span>") 0
  rw [e1, e2]
  refine CPc_append0 (CPc_append0 (CPc_append0 (CPc_key hT key)
    (CPc_append0 ?_ ?_)) ?_) (CPc_append0 ?_ ?_)
  · exact CPc_clean t0 (by decide)
  · exact CPc_lit_nd hT _ (by decide) (by decide) (by decide) (by decide)
  · exact CPc_clean t0 hcnt
  · exact CPc_clean t0 (by decide)
  · exact CPc_lit_nd hT _ (by decide) (by decide) (by decide) (by decide)

/-- Counting a leaf line: exactly `dL` occurrences. -/
theorem CPc_leafH {tok : List Char} {dD dL : Nat} (hT : TagTok tok dD dL)
    (lvl : Nat) (pre val : String) (hpre : CPc tok pre 0) (hval : CPc tok val 0) :
    CPc tok (leaf_html lvl pre val) dL := by
  have t0 := TagTok_head hT
  show CPc tok ("<div class=\"jt-leaf\" style=\"margin-left:" ++ indentRem lvl
    ++ "rem\">" ++ pre ++ val ++ "</div>") dL
  have h1 : CPc tok (indentRem lvl) 0 :=
    CPc_clean t0 (fun c hc => (indentRem_nolt lvl c hc).1)
  have h2 : CPc tok "rem\">" 0 := CPc_clean t0 (by decide)
  have h3 : CPc tok "</div>" 0 :=
    CPc_lit_nd hT _ (by decide) (by decide) (by decide) (by decide)
  exact CPc_count_eq (CPc_append (CPc_append (CPc_append (CPc_append
    (CPc_append (CPc_llit hT) h1) h2) hpre) hval) h3) (by omega)

/-- Counting a section: `dD` for its own header plus the inner count. -/
theorem CPc_detailsH {tok : List Char} {dD dL : Nat} (hT : TagTok tok dD dL)
    (oa : String) (hoa : ∀ c ∈ oa.data, c ≠ '<') (lvl : Nat) (label inner : String)
    (hlabel : CPc tok label 0) {cI : Nat} (hinner : CPc tok inner cI) :
    CPc tok (details_html oa lvl label inner) (dD + cI) := by
  have t0 := TagTok_head hT
  have e1 : ("rem\"><summary class=\"jt-summary\">" : String)
      = "rem\">" ++ "<summary class=\"jt-summary\">" := by decide
  show CPc tok ("<details class=\"jt-details\"" ++ oa ++ " style=\"margin-left:"
    ++ indentRem lvl ++ "rem\"><summary class=\"jt-summary\">" ++ label ++ "</summary>"
    ++ inner ++ "</details>") (dD + cI)
  rw [e1]
  have h1 : CPc tok " style=\"margin-left:" 0 := CPc_clean t0 (by decide)
  have h2 : CPc tok (indentRem lvl) 0 :=
    CPc_clean t0 (fun c hc => (indentRem_nolt lvl c hc).1)
  have h3 : CPc tok "rem\">" 0 := CPc_clean t0 (by decide)
  have h4 : CPc tok "<summary class=\"jt-summary\">" 0 :=
    CPc_lit_nd hT _ (by decide) (by decide) (by decide) (by decide)
  have h5 : CPc tok "</summary>" 0 :=
    CPc_lit_nd hT _ (by decide) (by decide) (by decide) (by decide)
  have h6 : CPc tok "</details>" 0 :=
    CPc_lit_nd hT _ (by decide) (by decide) (by decide) (by decide)
  exact CPc_count_eq (CPc_append (CPc_append (CPc_append (CPc_append (CPc_append
    (CPc_append (CPc_append (CPc_append (CPc_dlit hT) (CPc_clean t0 hoa)) h1) h2)
    (CPc_append h3 h4)) hlabel) h5) hinner) h6) (by omega)

theorem TagTok_tokD : TagTok ("<details" : String).data 1 0 := by
  refine ⟨by decide, by decide, by decide, by decide, by decide⟩

theorem TagTok_tokL : TagTok ("<div class=\"jt-leaf\"" : String).data 0 1 := by
  refine ⟨by decide, by decide, by decide, by decide, by decide⟩

theorem TagTok_tokC : TagTok ("<div class=\"jt-leaf\">" : String).data 0 0 := by
  refine ⟨by decide, by decide, by decide, by decide, by decide⟩

/-! The main induction: a tree-shaped node renders to markup containing
`dD` occurrences of the token per container plus `dL` per primitive, visiting
exactly the container identities of the tree. -/

mutual
theorem repct_val (tok : List Char) (dD dL : Nat) (hT : TagTok tok dD dL) (t : TVal) :
    ∀ (h : Heap) (n : Node) (u : List Nat) (fuel : Nat) (ed : Int) (lvl : Nat)
      (seen : List Nat) (key : Option PyKey) (ms : Option Int),
      RepV h n t u → cleanT t → (∀ x ∈ u, x ∉ seen) → depthT t < fuel →
      ∃ out seen2, toHtmlF fuel h n ed lvl seen key none ms = some (out, seen2)
        ∧ (∀ x, x ∈ seen2 ↔ x ∈ u ∨ x ∈ seen)
        ∧ CPc tok out (dD * cntC t + dL * cntP t) := by
  cases t with
  | prim p =>
    intro h n u fuel ed lvl seen key ms hrep hcl hdisj hdepth
    cases n with
    | ref i => simp [RepV] at hrep
    | prim q =>
      obtain ⟨hpq, hu⟩ := (by simpa [RepV] using hrep : p = q ∧ u = [])
      subst hpq
      subst hu
      cases fuel with
      | zero => exact absurd hdepth (by simp [depthT])
      | succ f =>
        refine ⟨leaf_html lvl (key_prefix_html key) (fmt_primitive ms p), seen, rfl, ?_, ?_⟩
        · intro x; simp
        · refine CPc_count_eq
            (CPc_leafH hT lvl _ _ (CPc_key hT key) (CPc_fmt hT ms p hcl)) ?_
          simp [cntC, cntP]
  | tobj fs =>
    intro h n u fuel ed lvl seen key ms hrep hcl hdisj hdepth
    cases n with
    | prim q => simp [RepV] at hrep
    | ref i =>
      simp only [RepV] at hrep
      obtain ⟨entries, u0, hl, hfs, hni0, hu⟩ := hrep
      subst hu
      cases fuel with
      | zero => exact absurd hdepth (by simp)
      | succ f =>
        have hni : i ∉ seen := hdisj i (by simp)
        have hdisj0 : ∀ x ∈ u0, x ∉ i :: seen := by
          intro x hx
          simp only [List.mem_cons]
          push_neg
          exact ⟨fun he => hni0 (he ▸ hx), hdisj x (by simp [hx])⟩
        have hdf : depthF fs < f := by
          simp only [depthT] at hdepth
          omega
        obtain ⟨rows, seen2, hrows, hseen2, hcp⟩ := repct_fs tok dD dL hT fs h entries u0 f
          (max (ed - 1) 0) (lvl + 1) (i :: seen) ms hfs hcl hdisj0 hdf
        refine ⟨container_wrap false key ed lvl entries.length none rows, seen2, ?_, ?_, ?_⟩
        · simp only [toHtmlF, if_neg hni, hl, hrows]
        · intro x
          rw [hseen2 x]
          simp only [List.mem_cons]
          tauto
        · rw [container_wrap_all false key ed lvl entries.length none rows rfl]
          have hoa : ∀ c ∈ (if 0 < ed then " open" else "" : String).data, c ≠ '<' := by
            split <;> decide
          refine CPc_count_eq (CPc_detailsH hT _ hoa lvl _ _
            (CPc_label_obj hT key (natRepr entries.length)
              (fun c hc => (natRepr_nolt _ c hc).1)) hcp) ?_
          simp only [cntC, cntP]
          ring
  | tarr its =>
    intro h n u fuel ed lvl seen key ms hrep hcl hdisj hdepth
    cases n with
    | prim q => simp [RepV] at hrep
    | ref i =>
      simp only [RepV] at hrep
      obtain ⟨items, u0, hl, hits, hni0, hu⟩ := hrep
      subst hu
      cases fuel with
      | zero => exact absurd hdepth (by simp)
      | succ f =>
        have hni : i ∉ seen := hdisj i (by simp)
        have hdisj0 : ∀ x ∈ u0, x ∉ i :: seen := by
          intro x hx
          simp only [List.mem_cons]
          push_neg
          exact ⟨fun he => hni0 (he ▸ hx), hdisj x (by simp [hx])⟩
        have hdf : depthI its < f := by
          simp only [depthT] at hdepth
          omega
        obtain ⟨rows, seen2, hrows, hseen2, hcp⟩ := repct_is tok dD dL hT its h items 0 u0 f
          (max (ed - 1) 0) (lvl + 1) (i :: seen) ms hits hcl hdisj0 hdf
        refine ⟨container_wrap true key ed lvl items.length none rows, seen2, ?_, ?_, ?_⟩
        · simp only [toHtmlF, if_neg hni, hl]
          have harr : arrChildren items none
              = (items.enumFrom 0).map (fun iv => (PyKey.idx iv.1, iv.2)) := rfl
          rw [harr, hrows]
        · intro x
          rw [hseen2 x]
          simp only [List.mem_cons]
          tauto
        · rw [container_wrap_all true key ed lvl items.length none rows rfl]
          have hoa : ∀ c ∈ (if 0 < ed then " open" else "" : String).data, c ≠ '<' := by
            split <;> decide
          refine CPc_count_eq (CPc_detailsH hT _ hoa lvl _ _
            (CPc_label_arr hT key (natRepr items.length)
              (fun c hc => (natRepr_nolt _ c hc).1)) hcp) ?_
          simp only [cntC, cntP]
          ring

theorem repct_fs (tok : List Char) (dD dL : Nat) (hT : TagTok tok dD dL) (fs : TFields) :
    ∀ (h : Heap) (entries : List (String × Node)) (u : List Nat) (fuel : Nat) (ed : Int)
      (lvl : Nat) (seen : List Nat) (ms : Option Int),
      RepFs h entries fs u → cleanF fs → (∀ x ∈ u, x ∉ seen) → depthF fs < fuel →
      ∃ rows seen2,
        rowsGo (fmt_primitive ms)
          (fun n k s => toHtmlF fuel h n ed lvl s k none ms) lvl
          (objChildren entries none) seen = some (rows, seen2)
        ∧ (∀ x, x ∈ seen2 ↔ x ∈ u ∨ x ∈ seen)
        ∧ CPc tok (String.join rows) (dD * cntCF fs + dL * cntPF fs) := by
  cases fs with
  | fnil =>
    intro h entries u fuel ed lvl seen ms hrep hcl hdisj hdepth
    cases entries with
    | cons e r => simp [RepFs] at hrep
    | nil =>
      have hu : u = [] := by simpa [RepFs] using hrep
      subst hu
      refine ⟨[], seen, rfl, by intro x; simp, ?_⟩
      refine CPc_count_eq CPc_emptyS ?_
      simp [cntCF, cntPF]
  | fcons k2 v fs2 =>
    intro h entries u fuel ed lvl seen ms hrep hcl hdisj hdepth
    cases entries with
    | nil => simp [RepFs] at hrep
    | cons e rest =>
      obtain ⟨k, n⟩ := e
      simp only [RepFs] at hrep
      obtain ⟨u1, u2, hk, hrv, hrfs, hd12, hu⟩ := hrep
      subst hu
      obtain ⟨hclv, hclfs⟩ := (by simpa [cleanF] using hcl : cleanT v ∧ cleanF fs2)
      have hdep2 := hdepth
      simp only [depthF, Nat.max_lt] at hdep2
      have hchildren : objChildren ((k, n) :: rest) none
          = (PyKey.str k, n) :: objChildren rest none := rfl
      cases n with
      | prim p =>
        cases v with
        | tobj fs3 => simp [RepV] at hrv
        | tarr its3 => simp [RepV] at hrv
        | prim q =>
          obtain ⟨hq, hu1⟩ := (by simpa [RepV] using hrv : q = p ∧ u1 = [])
          subst hq
          subst hu1
          obtain ⟨rows, seen2, hrows, hseen2, hcp⟩ := repct_fs tok dD dL hT fs2 h rest u2
            fuel ed lvl seen ms hrfs hclfs
            (by intro x hx; exact hdisj x (by simp [hx])) hdep2.2
          refine ⟨leaf_html lvl (key_prefix_html (some (PyKey.str k)))
            (fmt_primitive ms q) :: rows, seen2, ?_, ?_, ?_⟩
          · rw [hchildren]
            simp only [rowsGo, hrows]
          · intro x
            rw [hseen2 x]
            simp
          · rw [string_join_cons]
            refine CPc_count_eq (CPc_append
              (CPc_leafH hT lvl _ _ (CPc_key hT (some (.str k))) (CPc_fmt hT ms q hclv))
              hcp) ?_
            simp only [cntCF, cntPF, cntC, cntP]
            ring
      | ref j =>
        obtain ⟨out, s1, hrun, hs1, hcp1⟩ := repct_val tok dD dL hT v h (.ref j) u1 fuel ed
          lvl seen (some (.str k)) ms hrv hclv
          (fun x hx => hdisj x (by simp [hx])) hdep2.1
        have hd21 : ∀ x ∈ u2, x ∉ s1 := by
          intro x hx
          rw [hs1 x]
          push_neg
          constructor
          · intro hx1
            exact absurd hx (hd12 x hx1)
          · exact hdisj x (by simp [hx])
        obtain ⟨rows, seen2, hrows, hseen2, hcp2⟩ := repct_fs tok dD dL hT fs2 h rest u2
          fuel ed lvl s1 ms hrfs hclfs hd21 hdep2.2
        refine ⟨out :: rows, seen2, ?_, ?_, ?_⟩
        · rw [hchildren]
          simp only [rowsGo, hrun, hrows]
        · intro x
          rw [hseen2 x, hs1 x]
          simp only [List.mem_append]
          tauto
        · rw [string_join_cons]
          refine CPc_count_eq (CPc_append hcp1 hcp2) ?_
          simp only [cntCF, cntPF]
          ring

theorem repct_is (tok : List Char) (dD dL : Nat) (hT : TagTok tok dD dL) (its : TItems) :
    ∀ (h : Heap) (items : List Node) (j : Nat) (u : List Nat) (fuel : Nat) (ed : Int)
      (lvl : Nat) (seen : List Nat) (ms : Option Int),
      RepIs h items its u → cleanI its → (∀ x ∈ u, x ∉ seen) → depthI its < fuel →
      ∃ rows seen2,
        rowsGo (fmt_primitive ms)
          (fun n k s => toHtmlF fuel h n ed lvl s k none ms) lvl
          ((items.enumFrom j).map (fun iv => (PyKey.idx iv.1, iv.2))) seen
          = some (rows, seen2)
        ∧ (∀ x, x ∈ seen2 ↔ x ∈ u ∨ x ∈ seen)
        ∧ CPc tok (String.join rows) (dD * cntCI its + dL * cntPI its) := by
  cases its with
  | inil =>
    intro h items j u fuel ed lvl seen ms hrep hcl hdisj hdepth
    cases items with
    | cons e r => simp [RepIs] at hrep
    | nil =>
      have hu : u = [] := by simpa [RepIs] using hrep
      subst hu
      refine ⟨[], seen, rfl, by intro x; simp, ?_⟩
      refine CPc_count_eq CPc_emptyS ?_
      simp [cntCI, cntPI]
  | icons v its2 =>
    intro h items j u fuel ed lvl seen ms hrep hcl hdisj hdepth
    cases items with
    | nil => simp [RepIs] at hrep
    | cons n rest =>
      simp only [RepIs] at hrep
      obtain ⟨u1, u2, hrv, hris, hd12, hu⟩ := hrep
      subst hu
      obtain ⟨hclv, hclis⟩ := (by simpa [cleanI] using hcl : cleanT v ∧ cleanI its2)
      have hdep2 := hdepth
      simp only [depthI, Nat.max_lt] at hdep2
      have hchildren : ((n :: rest).enumFrom j).map (fun iv => (PyKey.idx iv.1, iv.2))
          = (PyKey.idx j, n)
            :: (rest.enumFrom (j + 1)).map (fun iv => (PyKey.idx iv.1, iv.2)) := rfl
      cases n with
      | prim p =>
        cases v with
        | tobj fs3 => simp [RepV] at hrv
        | tarr its3 => simp [RepV] at hrv
        | prim q =>
          obtain ⟨hq, hu1⟩ := (by simpa [RepV] using hrv : q = p ∧ u1 = [])
          subst hq
          subst hu1
          obtain ⟨rows, seen2, hrows, hseen2, hcp⟩ := repct_is tok dD dL hT its2 h rest
            (j + 1) u2 fuel ed lvl seen ms hris hclis
            (by intro x hx; exact hdisj x (by simp [hx])) hdep2.2
          refine ⟨leaf_html lvl (key_prefix_html (some (PyKey.idx j)))
            (fmt_primitive ms q) :: rows, seen2, ?_, ?_, ?_⟩
          · rw [hchildren]
            simp only [rowsGo, hrows]
          · intro x
            rw [hseen2 x]
            simp
          · rw [string_join_cons]
            refine CPc_count_eq (CPc_append
              (CPc_leafH hT lvl _ _ (CPc_key hT (some (.idx j))) (CPc_fmt hT ms q hclv))
              hcp) ?_
            simp only [cntCI, cntPI, cntC, cntP]
            ring
      | ref i2 =>
        obtain ⟨out, s1, hrun, hs1, hcp1⟩ := repct_val tok dD dL hT v h (.ref i2) u1 fuel
          ed lvl seen (some (.idx j)) ms hrv hclv
          (fun x hx => hdisj x (by simp [hx])) hdep2.1
        have hd21 : ∀ x ∈ u2, x ∉ s1 := by
          intro x hx
          rw [hs1 x]
          push_neg
          constructor
          · intro hx1
            exact absurd hx (hd12 x hx1)
          · exact hdisj x (by simp [hx])
        obtain ⟨rows, seen2, hrows, hseen2, hcp2⟩ := repct_is tok dD dL hT its2 h rest
          (j + 1) u2 fuel ed lvl s1 ms hris hclis hd21 hdep2.2
        refine ⟨out :: rows, seen2, ?_, ?_, ?_⟩
        · rw [hchildren]
          simp only [rowsGo, hrun, hrows]
        · intro x
          rw [hseen2 x, hs1 x]
          simp only [List.mem_append]
          tauto
        · rw [string_join_cons]
          refine CPc_count_eq (CPc_append hcp1 hcp2) ?_
          simp only [cntCI, cntPI]
          ring
end

/-- C1 counterexample: an acyclic heap (witnessed by a rank function that
strictly decreases along every container reference) in which one empty array
is shared by two mapping entries.  Rendering it emits a `[Circular]` marker —
the `seen` set treats the second reference to the already-rendered array as
circular — so the claim fails for acyclic structures with shared references. -/
theorem shared_reference_counterexample :
    (∃ r : Nat → Nat,
      ∀ p ∈ ([(0, Container.cobj [("a", Node.ref 1), ("b", Node.ref 1)]),
              (1, Container.carr [])] : Heap),
        ∀ j ∈ refsOfC p.2, r j < r p.1)
    ∧ CP "[Circular]"
        (to_html [(0, .cobj [("a", .ref 1), ("b", .ref 1)]), (1, .carr [])]
          (.ref 0) 1 0 [] none none none) = 1 := by
  constructor
  · exact ⟨fun i => if i = 0 then 1 else 0, by decide⟩
  · decide

/-- C1 amended: for a tree-shaped structure (`RepV`: every container reachable
through exactly one reference — acyclic and without shared references; float
texts tag-free), rendering with unlimited `maxChildren` emits exactly one
`<details` header per reachable container and exactly one `<div
class="jt-leaf"` leaf line per reachable primitive, and never the `[Circular]`
marker fragment (whose distinctive unstyled opening tag `<div
class="jt-leaf">` does not occur at all; every `<` of the markup comes from a
template tag, since escaping removes `<` from embedded text). -/
theorem one_fragment_per_node (h : Heap) (n : Node) (t : TVal) (u : List Nat)
    (fuel : Nat) (ed : Int) (key : Option PyKey) (ms : Option Int)
    (hrep : RepV h n t u) (hcl : cleanT t) (hfuel : depthT t < fuel) :
    ∃ out seen2, toHtmlF fuel h n ed 0 [] key none ms = some (out, seen2)
      ∧ CP "<details" out = cntC t
      ∧ CP "<div class=\"jt-leaf\"" out = cntP t
      ∧ CP "<div class=\"jt-leaf\">" out = 0 := by
  obtain ⟨out, seen2, hrun, _, hcpD⟩ := repct_val _ 1 0 TagTok_tokD t h n u fuel ed 0 []
    key ms hrep hcl (by simp) hfuel
  obtain ⟨outL, seenL, hrunL, _, hcpL⟩ := repct_val _ 0 1 TagTok_tokL t h n u fuel ed 0 []
    key ms hrep hcl (by simp) hfuel
  obtain ⟨outC, seenC, hrunC, _, hcpC⟩ := repct_val _ 0 0 TagTok_tokC t h n u fuel ed 0 []
    key ms hrep hcl (by simp) hfuel
  have heL : outL = out := by
    have h0 := hrunL.symm.trans hrun
    simp only [Option.some.injEq, Prod.mk.injEq] at h0
    exact h0.1
  have heC : outC = out := by
    have h0 := hrunC.symm.trans hrun
    simp only [Option.some.injEq, Prod.mk.injEq] at h0
    exact h0.1
  rw [heL] at hcpL
  rw [heC] at hcpC
  refine ⟨out, seen2, hrun, ?_, ?_, ?_⟩
  · have hd := CP_of_CPc hcpD
    show countPos ("<details" : String).data out.data = cntC t
    rw [hd]
    ring
  · have hd := CP_of_CPc hcpL
    show countPos ("<div class=\"jt-leaf\"" : String).data out.data = cntP t
    rw [hd]
    ring
  · have hd := CP_of_CPc hcpC
    show countPos ("<div class=\"jt-leaf\">" : String).data out.data = 0
    rw [hd]
    ring

/-- Witness for `one_fragment_per_node`: a mapping with a primitive entry and
an array entry holding one number — two containers, two primitives. -/
theorem one_fragment_per_node_witness :
    ∃ out seen2,
      toHtmlF 3 [(0, .cobj [("a", .prim .pnone), ("b", .ref 1)]),
                 (1, .carr [.prim (.pint 5)])] (.ref 0) 1 0 [] none none none
        = some (out, seen2)
      ∧ CP "<details" out = 2
      ∧ CP "<div class=\"jt-leaf\"" out = 2
      ∧ CP "<div class=\"jt-leaf\">" out = 0 := by
  have hrep : RepV [(0, .cobj [("a", .prim .pnone), ("b", .ref 1)]),
      (1, .carr [.prim (.pint 5)])] (.ref 0)
      (.tobj (.fcons "a" (.prim .pnone)
        (.fcons "b" (.tarr (.icons (.prim (.pint 5)) .inil)) .fnil))) [0, 1] := by
    simp only [RepV, RepFs, RepIs]
    refine ⟨[("a", .prim .pnone), ("b", .ref 1)], [1], by decide, ?_, by decide, rfl⟩
    refine ⟨[], [1], rfl, ⟨rfl, rfl⟩, ?_, by simp, rfl⟩
    refine ⟨[1], [], rfl, ?_, rfl, by simp, rfl⟩
    refine ⟨[.prim (.pint 5)], [], by decide, ?_, by decide, rfl⟩
    exact ⟨[], [], ⟨rfl, rfl⟩, rfl, by simp, rfl⟩
  have hcl : cleanT (.tobj (.fcons "a" (.prim .pnone)
      (.fcons "b" (.tarr (.icons (.prim (.pint 5)) .inil)) .fnil))) := by
    simp [cleanT, cleanF, cleanI, cleanP]
  obtain ⟨out, seen2, h1, h2, h3, h4⟩ := one_fragment_per_node _ (.ref 0) _ [0, 1] 3 1
    none none hrep hcl (by decide)
  exact ⟨out, seen2, h1, h2.trans (by decide), h3.trans (by decide), h4⟩

end JsonTree
